import Mathlib

/-!
Verification development for the crypto-microstructure repository.

The analysis engine (src/analysis.py) manipulates pandas Series of IEEE
floats; we model float values exactly with `PFloat`: a rational payload
plus the special values `nan`, `pinf`, `ninf`.  numpy/pandas arithmetic
(where division by zero yields inf/nan rather than raising) is embedded
by the `p*` operations.  The transcendental functions `np.log` and the
square root inside Pearson correlation are abstracted as function
parameters, since the claims under study do not depend on their values.
The collection module (src/collection.py) uses pure-Python float
arithmetic (where division by zero raises), embedded with `Except`.
-/

/-- Exact model of a Python/numpy float value: a rational, or nan/±inf. -/
inductive PFloat where
  | val : ℚ → PFloat
  | pinf : PFloat
  | ninf : PFloat
  | nan : PFloat
deriving DecidableEq, Repr

namespace PFloat

def isNan : PFloat → Bool
  | nan => true
  | _ => false

def isVal : PFloat → Bool
  | val _ => true
  | _ => false

def pNeg : PFloat → PFloat
  | val a => val (-a)
  | pinf => ninf
  | ninf => pinf
  | nan => nan

def pAdd : PFloat → PFloat → PFloat
  | nan, _ => nan
  | _, nan => nan
  | pinf, ninf => nan
  | ninf, pinf => nan
  | pinf, _ => pinf
  | _, pinf => pinf
  | ninf, _ => ninf
  | _, ninf => ninf
  | val a, val b => val (a + b)

def pSub (a b : PFloat) : PFloat := pAdd a (pNeg b)

def pMul : PFloat → PFloat → PFloat
  | nan, _ => nan
  | _, nan => nan
  | pinf, pinf => pinf
  | pinf, ninf => ninf
  | ninf, pinf => ninf
  | ninf, ninf => pinf
  | pinf, val b => if 0 < b then pinf else if b < 0 then ninf else nan
  | val a, pinf => if 0 < a then pinf else if a < 0 then ninf else nan
  | ninf, val b => if 0 < b then ninf else if b < 0 then pinf else nan
  | val a, ninf => if 0 < a then ninf else if a < 0 then pinf else nan
  | val a, val b => val (a * b)

def pDiv : PFloat → PFloat → PFloat
  | nan, _ => nan
  | _, nan => nan
  | pinf, pinf => nan
  | pinf, ninf => nan
  | ninf, pinf => nan
  | ninf, ninf => nan
  | val _, pinf => val 0
  | val _, ninf => val 0
  | pinf, val b => if b < 0 then ninf else pinf
  | ninf, val b => if b < 0 then pinf else ninf
  | val a, val b =>
      if b = 0 then (if 0 < a then pinf else if a < 0 then ninf else nan)
      else val (a / b)

def pAbs : PFloat → PFloat
  | val a => val |a|
  | pinf => pinf
  | ninf => pinf
  | nan => nan

/-- Model of `np.sign`. -/
def pSign : PFloat → PFloat
  | val a => val (if 0 < a then 1 else if a < 0 then -1 else 0)
  | pinf => val 1
  | ninf => val (-1)
  | nan => nan

/-- Python `<` on floats (nan incomparable). -/
def pyLt : PFloat → PFloat → Bool
  | nan, _ => false
  | _, nan => false
  | val a, val b => decide (a < b)
  | val _, pinf => true
  | val _, ninf => false
  | pinf, _ => false
  | ninf, ninf => false
  | ninf, _ => true

/-- Python `>` on floats. -/
def pyGt (a b : PFloat) : Bool := pyLt b a

/-- Python `==` on floats (nan is not equal to itself). -/
def pyEqB : PFloat → PFloat → Bool
  | val a, val b => decide (a = b)
  | pinf, pinf => true
  | ninf, ninf => true
  | _, _ => false

/-- Python `<=` on floats. -/
def pyLe (a b : PFloat) : Bool := pyLt a b || pyEqB a b

end PFloat

open PFloat

/-- Sum of a list of floats, as numpy computes it (left fold from 0.0). -/
def pSum (l : List PFloat) : PFloat := l.foldl pAdd (val 0)

/-- Model of `np.mean` on a list (nan on an empty list). -/
def pMean (l : List PFloat) : PFloat :=
  if l.isEmpty then nan else pDiv (pSum l) (val l.length)

/-- Model of `Series.dropna()`. -/
def dropNan (l : List PFloat) : List PFloat := l.filter (fun x => !x.isNan)

/-- Model of `Series.var()` — pandas sample variance, `ddof=1`, `skipna=True`:
nan entries are skipped; nan when fewer than two observations remain. -/
def pandasVar (l : List PFloat) : PFloat :=
  let v := l.filter (fun x => !x.isNan)
  let n := v.length
  if n < 2 then nan
  else
    let m := pDiv (pSum v) (val n)
    pDiv (pSum (v.map (fun x => pMul (pSub x m) (pSub x m)))) (val (n - 1 : ℕ))

/-- Association-list lookup — first binding wins, as in a Python dict. -/
def dictGet {κ β : Type} [DecidableEq κ] : List (κ × β) → κ → Option β
  | [], _ => none
  | p :: rest, k => if p.1 = k then some p.2 else dictGet rest k

/-- Python dict assignment `d[k] = v`: overwrite in place, else append. -/
def dictInsert {κ β : Type} [DecidableEq κ] : List (κ × β) → κ → β → List (κ × β)
  | [], k, v => [(k, v)]
  | p :: rest, k, v => if p.1 = k then (k, v) :: rest else p :: dictInsert rest k v

/-- Element of a series at a row index; out of range reads as nan. -/
def getE (l : List PFloat) (r : ℕ) : PFloat := l.getD r nan

/-- Model of `Series.shift(k)` for `k ≥ 0`: leading entries become nan. -/
def seriesShift (k : ℕ) (xs : List PFloat) : List PFloat :=
  (List.range xs.length).map (fun t => if t < k then nan else getE xs (t - k))

/-- Model of `Series.shift(-k)`: trailing entries become nan. -/
def seriesShiftNeg (k : ℕ) (xs : List PFloat) : List PFloat :=
  (List.range xs.length).map (fun t => if t + k < xs.length then getE xs (t + k) else nan)

/-- Elementwise division of two index-aligned series. -/
def seriesDiv (xs ys : List PFloat) : List PFloat :=
  (xs.zip ys).map (fun p => pDiv p.1 p.2)

/-- Model of `Series.pct_change(periods=h)` (no forward-filling of nans):
`x / x.shift(h) - 1`. -/
def pctChange (h : ℕ) (xs : List PFloat) : List PFloat :=
  (seriesDiv xs (seriesShift h xs)).map (fun v => pSub v (val 1))

/-- The forward return series `df['mid_price'].pct_change(periods=h).shift(-h)`
computed by `test_imbalance_hypothesis`. -/
def forwardReturns (mid : List PFloat) (h : ℕ) : List PFloat :=
  seriesShiftNeg h (pctChange h mid)

/-- Pearson correlation of two aligned series, as `Series.corr` computes it:
pairwise-complete (rows with a nan on either side dropped), nan when no
pair remains.  The square root is an abstract parameter. -/
def pearson (psqrt : PFloat → PFloat) (xs ys : List PFloat) : PFloat :=
  let pairs := (xs.zip ys).filter (fun p => !p.1.isNan && !p.2.isNan)
  let n := pairs.length
  if n = 0 then nan
  else
    let a := pairs.map Prod.fst
    let b := pairs.map Prod.snd
    let ma := pDiv (pSum a) (val n)
    let mb := pDiv (pSum b) (val n)
    let cov := pSum ((a.zip b).map (fun p => pMul (pSub p.1 ma) (pSub p.2 mb)))
    let va := pSum (a.map (fun x => pMul (pSub x ma) (pSub x ma)))
    let vb := pSum (b.map (fun y => pMul (pSub y mb) (pSub y mb)))
    pDiv cov (psqrt (pMul va vb))

/-- Python `max` over key-value pairs, keeping the pair with the larger second component;
Python `max` semantics: replace only on strictly greater, so ties keep
the earlier element, and nan values never win a comparison. -/
def pyMaxPairs {κ : Type} : List (κ × PFloat) → Option (κ × PFloat)
  | [] => none
  | p :: rest => some (rest.foldl (fun b a => if pyGt a.2 b.2 then a else b) p)

/-- Python `max(values)` over a list of floats (left fold, strict-greater
replacement — the same semantics `max(d, key=d.get)` uses on values). -/
def pyMaxList : List PFloat → Option PFloat
  | [] => none
  | x :: rest => some (rest.foldl (fun b a => if pyGt a b then a else b) x)

/-!
## The analysis engine (src/analysis.py)

A DataFrame is modelled column-major: an insertion-ordered association
list from column name to series, mirroring a pandas frame.  Because the
Python code mutates its input frame (`df['returns'] = ...`), the
embedding threads the frame explicitly and returns the final frame next
to the result, so the caller-visible frame effect is observable.
-/

/-- Column-major DataFrame model. -/
abbrev Df := List (String × List PFloat)

/-- Column lookup `df[name]` / the test `name in df.columns`. -/
def getCol (df : Df) (name : String) : Option (List PFloat) := dictGet df name

/-- Column assignment `df[name] = col`: overwrite in place, or append a new column. -/
def setCol (df : Df) (name : String) (col : List PFloat) : Df := dictInsert df name col

/-- Number of rows of a frame (length of its first column). -/
def nRows (df : Df) : ℕ :=
  match df with
  | [] => 0
  | c :: _ => c.2.length

/-- The `subset.dropna()` row test: every column of the frame is non-nan at
row `r`. -/
def rowAllDefined (df : Df) (r : ℕ) : Bool :=
  df.all (fun c => !(getE c.2 r).isNan)

/-- The row set `df[abs(df['imbalance_5']) > threshold].dropna()` of the
directional-accuracy step: rows whose imbalance exceeds the threshold in
absolute value and whose every column (including the stashed `returns`
column of `df2`) is defined. -/
def strongRows (df2 : Df) (imb : List PFloat) (τ : ℚ) : List ℕ :=
  (List.range (nRows df2)).filter
    (fun r => pyGt (pAbs (getE imb r)) (val τ) && rowAllDefined df2 r)

/-- The count `(np.sign(subset['imbalance_5']) == np.sign(subset['returns'])).sum()`. -/
def matchCount (imb ret : List PFloat) (rows : List ℕ) : ℕ :=
  (rows.filter (fun r => pyEqB (pSign (getE imb r)) (pSign (getE ret r)))).length

/-- Result record of `test_imbalance_hypothesis`. -/
structure ImbResult where
  correlations : List (ℕ × PFloat)
  best_horizon : ℕ
  directional_accuracy : List (ℚ × ℚ)
deriving DecidableEq, Repr

/-- Shallow embedding of `test_imbalance_hypothesis` (src/analysis.py).
`psqrt` abstracts the square root inside Pearson correlation.  The
function raises `ValueError` when a required column is missing, and
Python's `max` raises on an empty dict (empty `horizons`); both are
modelled as `Except.error`.  The returned frame is the caller's frame
after the in-place `df['returns'] = ...` assignment. -/
def test_imbalance_hypothesis (psqrt : PFloat → PFloat) (df : Df)
    (horizons : List ℕ) (thresholds : List ℚ) : Except String (ImbResult × Df) :=
  match getCol df "mid_price", getCol df "imbalance_5" with
  | some mid, some imb =>
    let correlations := horizons.foldl
      (fun d h => dictInsert d h (pearson psqrt imb (forwardReturns mid h))) []
    match pyMaxPairs correlations with
    | none => .error "ValueError: max arg is an empty sequence"
    | some bp =>
      let best_h := bp.1
      let returnsCol := forwardReturns mid best_h
      let df2 := setCol df "returns" returnsCol
      let accuracies := thresholds.foldl
        (fun d t =>
          if 0 < (strongRows df2 imb t).length then
            dictInsert d t
              ((matchCount imb returnsCol (strongRows df2 imb t) : ℚ) /
                ((strongRows df2 imb t).length : ℚ))
          else d) []
      .ok (⟨correlations, best_h, accuracies⟩, df2)
  | _, _ => .error "ValueError: Required columns missing from DataFrame"

/-- The series `np.log(df['mid_price'] / df['mid_price'].shift(k)).dropna()`
of `test_market_efficiency`; `log` abstracts `np.log`. -/
def logReturnsK (log : PFloat → PFloat) (mid : List PFloat) (k : ℕ) : List PFloat :=
  dropNan ((seriesDiv mid (seriesShift k mid)).map log)

/-- Result record of `test_market_efficiency`. -/
structure EffResult where
  variance_ratios : List (ℕ × PFloat)
  average_vr : PFloat
  market_characterization : String
deriving DecidableEq, Repr

/-- Shallow embedding of `test_market_efficiency` (src/analysis.py).
A missing `mid_price` column would raise `KeyError` in Python, modelled
as `Except.error`. -/
def test_market_efficiency (log : PFloat → PFloat) (df : Df)
    (lags : List ℕ) : Except String EffResult :=
  match getCol df "mid_price" with
  | none => .error "KeyError: mid_price"
  | some mid =>
    let variance := pandasVar (logReturnsK log mid 1)
    let variance_ratios := lags.foldl
      (fun d k => dictInsert d k
        (pDiv (pandasVar (logReturnsK log mid k)) (pMul (val k) variance))) []
    let avg_vr := pMean (variance_ratios.map Prod.snd)
    let characterization :=
      if pyGt avg_vr (val (11/10)) then "Trending/Momentum"
      else if pyLt avg_vr (val (9/10)) then "Mean-reverting"
      else "Approximately efficient (random walk)"
    .ok ⟨variance_ratios, avg_vr, characterization⟩

/-- Modelled from the spec: the unbiased (N−1) sample variance of a list
of rationals, `Σ (x − mean)² / (N − 1)`, used to check that the code's
`Series.var()` computes exactly this estimator on defined data. -/
def sampleVarianceUnbiasedSpec (qs : List ℚ) : ℚ :=
  ((qs.map (fun x => (x - qs.sum / qs.length) ^ 2)).sum) / (qs.length - 1 : ℚ)

/-- Modelled from the spec: the restricted row set of the
directional-accuracy step as the spec words it — rows where
`|imbalance_5(t)| > τ` and both `imbalance_5(t)` and the best-horizon
forward return are defined (no whole-row dropna). -/
def specRestrictedRows (imb ret : List PFloat) (τ : ℚ) : List ℕ :=
  (List.range imb.length).filter
    (fun r => pyGt (pAbs (getE imb r)) (val τ) && !(getE imb r).isNan && !(getE ret r).isNan)

/-- Modelled from the spec: the precondition of the imbalance test —
the frame has `mid_price` and `imbalance_5` columns that are defined for
at least some rows. -/
def specRequiredDefined (df : Df) : Bool :=
  match getCol df "mid_price", getCol df "imbalance_5" with
  | some m, some i => (m.any (fun x => !x.isNan)) && (i.any (fun x => !x.isNan))
  | _, _ => false

/-!
## The collection module (src/collection.py)

The sampler's scheduling arithmetic is over exact rationals (seconds).
The exchange connector is external: a tick's fetch outcome is an input.
Pure-Python float division raises `ZeroDivisionError`, so the snapshot
builder is embedded in `Except`.
-/

/-- One scheduling step of the collection loop in `collect_orderbook_data`:
given the current fixed-grid target, the current wall-clock time and the
configured interval, it yields the slept duration, whether the
behind-schedule warning was printed, and the next tick's target. -/
structure TickSchedule where
  sleep : ℚ
  warned : Bool
  nextTarget : ℚ
deriving DecidableEq, Repr

/-- One tick: `wait_time = next_target - now; if wait_time > 0: sleep(wait_time)
elif wait_time < -1: warn; ...; next_target += interval_seconds`. -/
def sampler_tick (next_target now interval : ℚ) : TickSchedule :=
  let wait_time := next_target - now
  { sleep := if 0 < wait_time then wait_time else 0
    warned := if 0 < wait_time then false else decide (wait_time < -1)
    nextTarget := next_target + interval }

/-- The grid target after a run of ticks whose iteration start times are
`nows` (each tick advances the target by `interval` regardless of `now`). -/
def samplerTargetAfter (t0 interval : ℚ) (nows : List ℚ) : ℚ :=
  nows.foldl (fun tgt now => (sampler_tick tgt now interval).nextTarget) t0

/-- Accumulator of the collection loop: the snapshot list and the
`snapshot_count` / `errors` counters. -/
structure CollectAcc (α : Type) where
  snapshots : List α
  snapshot_count : ℕ
  errors : ℕ
deriving DecidableEq, Repr

/-- One iteration's bookkeeping in `collect_orderbook_data`: on a fetched
snapshot append it and bump the count, otherwise bump the error counter;
the loop always continues to the next tick. -/
def collect_step {α : Type} (acc : CollectAcc α) (fetched : Option α) : CollectAcc α :=
  match fetched with
  | some s => ⟨acc.snapshots ++ [s], acc.snapshot_count + 1, acc.errors⟩
  | none => ⟨acc.snapshots, acc.snapshot_count, acc.errors + 1⟩

/-- Shallow embedding of `collect_orderbook_data`'s collection and final
yield: `fetches` is the per-tick sequence of connector outcomes over the
run's duration; the result is the saved DataFrame rows (`some`) or the
`None` failure signal, together with the final counters. -/
def collect_orderbook_data {α : Type} (fetches : List (Option α)) :
    Option (List α) × ℕ × ℕ :=
  let fin := fetches.foldl collect_step ⟨[], 0, 0⟩
  (if fin.snapshots.isEmpty then none else some fin.snapshots,
   fin.snapshot_count, fin.errors)

/-- An order book as returned by the exchange connector:
`(price, size)` levels, best first. -/
structure Orderbook where
  bids : List (ℚ × ℚ)
  asks : List (ℚ × ℚ)
deriving DecidableEq, Repr

/-- A snapshot record as built by `fetch_orderbook_snapshot`; optional
fields model dict keys that may be absent (`None` or never assigned). -/
structure Snapshot where
  timestamp : ℤ
  symbol : String
  best_bid : Option ℚ
  best_ask : Option ℚ
  best_bid_size : Option ℚ
  best_ask_size : Option ℚ
  bids : List (ℚ × ℚ)
  asks : List (ℚ × ℚ)
  bid_depth_5 : Option ℚ
  ask_depth_5 : Option ℚ
  bid_depth_10 : Option ℚ
  ask_depth_10 : Option ℚ
  spread : Option ℚ
  spread_bps : Option ℚ
  mid_price : Option ℚ
  imbalance_5 : Option ℚ
deriving DecidableEq, Repr

/-- Python truthiness of an optional number: `None` and `0` are falsy. -/
def truthyQ : Option ℚ → Bool
  | none => false
  | some q => decide (q ≠ 0)

/-- The body of `fetch_orderbook_snapshot`'s `try` block, given the
order book the connector returned: builds the base snapshot and adds the
derived metrics under their truthiness guards.  A zero total 5-level
depth would make `(bid_depth_5 - ask_depth_5) / total_depth` raise
`ZeroDivisionError` in Python, modelled as `Except.error`. -/
def fetch_body (now_ms : ℤ) (symbol : String) (depth : ℕ) (ob : Orderbook) :
    Except String Snapshot :=
  let best_bid := ob.bids.head?.map Prod.fst
  let best_ask := ob.asks.head?.map Prod.fst
  let bid_depth_5 := if 5 ≤ ob.bids.length then some (((ob.bids.take 5).map Prod.snd).sum) else none
  let ask_depth_5 := if 5 ≤ ob.asks.length then some (((ob.asks.take 5).map Prod.snd).sum) else none
  let base : Snapshot :=
    { timestamp := now_ms
      symbol := symbol
      best_bid := best_bid
      best_ask := best_ask
      best_bid_size := ob.bids.head?.map Prod.snd
      best_ask_size := ob.asks.head?.map Prod.snd
      bids := ob.bids.take depth
      asks := ob.asks.take depth
      bid_depth_5 := bid_depth_5
      ask_depth_5 := ask_depth_5
      bid_depth_10 := if 10 ≤ ob.bids.length then some (((ob.bids.take 10).map Prod.snd).sum) else none
      ask_depth_10 := if 10 ≤ ob.asks.length then some (((ob.asks.take 10).map Prod.snd).sum) else none
      spread := none
      spread_bps := none
      mid_price := none
      imbalance_5 := none }
  if truthyQ best_bid && truthyQ best_ask then
    let b := best_bid.getD 0
    let a := best_ask.getD 0
    let spread := a - b
    let withTop := { base with
      spread := some spread
      spread_bps := some (spread / b * 10000)
      mid_price := some ((b + a) / 2) }
    if truthyQ bid_depth_5 && truthyQ ask_depth_5 then
      let db := bid_depth_5.getD 0
      let da := ask_depth_5.getD 0
      let total_depth := db + da
      if total_depth = 0 then .error "ZeroDivisionError: float division by zero"
      else .ok { withTop with imbalance_5 := some ((db - da) / total_depth) }
    else .ok withTop
  else .ok base

/-- Shallow embedding of `fetch_orderbook_snapshot`: the connector's
outcome (`exchange.fetch_order_book`) is an input; any exception raised
by the fetch or by the derived-metric computation is caught by the
surrounding `try`/`except` and converted to `None`. -/
def fetch_orderbook_snapshot (now_ms : ℤ) (conn : Except String Orderbook)
    (symbol : String) (depth : ℕ) : Option Snapshot :=
  match conn.bind (fetch_body now_ms symbol depth) with
  | .ok s => some s
  | .error _ => none

/-- Shallow embedding of `initialise_exchange`: the construction and
`load_markets` outcome is an input; on any exception the function
returns `None` instead of raising. -/
def initialise_exchange {α : Type} (init : Except String α) : Option α :=
  match init with
  | .ok e => some e
  | .error _ => none

/-!
## Concrete frames, order books and runs used by witnesses and
counterexamples
-/

/-- A two-row frame with both required columns defined (C1). -/
def dfC1 : Df := [("mid_price", [val 1, val 2]), ("imbalance_5", [val (1/2), val (1/2)])]

/-- The frame `dfC1` after the imbalance test: the stashed `returns` column. -/
def dfC1After : Df :=
  [("mid_price", [val 1, val 2]), ("imbalance_5", [val (1/2), val (1/2)]),
   ("returns", [val 1, nan])]

/-- A frame whose required columns exist but hold no defined value (C6). -/
def dfC6 : Df := [("mid_price", [nan, nan, nan]), ("imbalance_5", [nan, nan, nan])]

/-- A frame with an extra `spread` column that is nan exactly on the rows
the threshold test should count (C7). -/
def dfC7 : Df :=
  [("mid_price", [val 2, val 1, val 2]),
   ("imbalance_5", [val (9/10), val (9/10), nan]),
   ("spread", [nan, nan, val 1])]

/-- The frame `dfC7` after the imbalance test. -/
def dfC7After : Df :=
  [("mid_price", [val 2, val 1, val 2]),
   ("imbalance_5", [val (9/10), val (9/10), nan]),
   ("spread", [nan, nan, val 1]),
   ("returns", [val (-1/2), val 1, nan])]

/-- A frame with three defined rows for the C3 witness. -/
def dfC3W : Df :=
  [("mid_price", [val 1, val 2, val 4]),
   ("imbalance_5", [val (9/10), val (9/10), val (9/10)])]

/-- A frame on which the horizon-1 correlation is nan (constant return
series on the overlap) while the horizon-2 correlation is finite: the
nan incumbent survives Python's `max` (C3). -/
def dfC3N : Df :=
  [("mid_price", [val 1, val 2, val 4, val 7]),
   ("imbalance_5", [val (9/10), val (1/10), nan, nan])]

/-- A constant mid-price frame (C2, Scenario A). -/
def dfC2 : Df := [("mid_price", [val 1, val 1, val 1, val 1])]

/-- Three strictly increasing mid prices: the 2-step log-return series
has a single defined entry, so its sample variance is nan (C8). -/
def dfC8 : Df := [("mid_price", [val 1, val 2, val 5])]

/-- Four defined mid prices giving finite positive variances (C8 witness). -/
def dfC8W : Df := [("mid_price", [val 1, val 2, val 4, val 16])]

/-- An order book with five levels per side and nonnegative sizes (C10). -/
def obC10 : Orderbook :=
  ⟨[(100, 1), (99, 1), (98, 1), (97, 1), (96, 1)],
   [(101, 2), (102, 1), (103, 1), (104, 1), (105, 1)]⟩

/-- The snapshot `fetch_orderbook_snapshot` builds from `obC10`. -/
def snapC10 : Snapshot :=
  { timestamp := 0
    symbol := "BTC/USDT"
    best_bid := some 100
    best_ask := some 101
    best_bid_size := some 1
    best_ask_size := some 2
    bids := [(100, 1), (99, 1), (98, 1), (97, 1), (96, 1)]
    asks := [(101, 2), (102, 1), (103, 1), (104, 1), (105, 1)]
    bid_depth_5 := some 5
    ask_depth_5 := some 6
    bid_depth_10 := none
    ask_depth_10 := none
    spread := some 1
    spread_bps := some 100
    mid_price := some (201/2)
    imbalance_5 := some (-1/11) }

/-!
## Dictionary lemmas
-/

theorem dictGet_insert_self {κ β : Type} [DecidableEq κ] (d : List (κ × β)) (k : κ) (v : β) :
    dictGet (dictInsert d k v) k = some v := by
  induction d with
  | nil => simp [dictInsert, dictGet]
  | cons p rest ih =>
    by_cases h : p.1 = k
    · simp [dictInsert, h, dictGet]
    · simp [dictInsert, h, dictGet, ih]

theorem dictGet_insert_ne {κ β : Type} [DecidableEq κ] (d : List (κ × β)) (k k' : κ) (v : β)
    (h : k' ≠ k) : dictGet (dictInsert d k v) k' = dictGet d k' := by
  have hkk : ¬(k = k') := fun hh => h hh.symm
  induction d with
  | nil => simp [dictInsert, dictGet, hkk]
  | cons p rest ih =>
    by_cases hp : p.1 = k
    · subst hp
      simp [dictInsert, dictGet, hkk]
    · simp only [dictInsert, if_neg hp, dictGet]
      by_cases hp' : p.1 = k'
      · simp [hp']
      · simp [hp', ih]

theorem mem_dictInsert {κ β : Type} [DecidableEq κ] (d : List (κ × β)) (k : κ) (v : β)
    (q : κ × β) (hq : q ∈ dictInsert d k v) : q ∈ d ∨ q = (k, v) := by
  induction d with
  | nil =>
    simp only [dictInsert, List.mem_singleton] at hq
    right; exact hq
  | cons p rest ih =>
    by_cases hp : p.1 = k
    · simp only [dictInsert, if_pos hp, List.mem_cons] at hq
      rcases hq with h | h
      · right; exact h
      · left; exact List.mem_cons_of_mem _ h
    · simp only [dictInsert, if_neg hp, List.mem_cons] at hq
      rcases hq with h | h
      · left
        rw [h]
        exact List.mem_cons_self p rest
      · rcases ih h with h' | h'
        · left; exact List.mem_cons_of_mem _ h'
        · right; exact h'

/-- Value of a key after a fold of guarded dict inserts with a
key-determined value. -/
theorem dictFoldIf_get {κ β : Type} [DecidableEq κ] (f : κ → β) (p : κ → Prop)
    [DecidablePred p] (ts : List κ) (d0 : List (κ × β)) (k : κ) :
    dictGet (ts.foldl (fun d x => if p x then dictInsert d x (f x) else d) d0) k
      = if k ∈ ts ∧ p k then some (f k) else dictGet d0 k := by
  induction ts generalizing d0 with
  | nil => simp
  | cons t ts ih =>
    simp only [List.foldl_cons]
    rw [ih]
    by_cases hmem : k ∈ ts ∧ p k
    · rw [if_pos hmem, if_pos ⟨List.mem_cons_of_mem t hmem.1, hmem.2⟩]
    · rw [if_neg hmem]
      by_cases htk : t = k
      · subst htk
        by_cases hp : p t
        · rw [if_pos hp, dictGet_insert_self, if_pos ⟨List.mem_cons_self t ts, hp⟩]
        · have hne : ¬(t ∈ t :: ts ∧ p t) := fun hc => hp hc.2
          rw [if_neg hp, if_neg hne]
      · have hne : ¬(k ∈ t :: ts ∧ p k) := by
          intro hc
          rcases List.mem_cons.mp hc.1 with h1 | h1
          · exact htk h1.symm
          · exact hmem ⟨h1, hc.2⟩
        rw [if_neg hne]
        by_cases hp : p t
        · rw [if_pos hp]
          exact dictGet_insert_ne d0 t k (f t) (fun hh => htk hh.symm)
        · rw [if_neg hp]

/-- Value of a key after a fold of unconditional dict inserts with a
key-determined value. -/
theorem dictFoldAll_get {κ β : Type} [DecidableEq κ] (f : κ → β)
    (ts : List κ) (d0 : List (κ × β)) (k : κ) :
    dictGet (ts.foldl (fun d x => dictInsert d x (f x)) d0) k
      = if k ∈ ts then some (f k) else dictGet d0 k := by
  induction ts generalizing d0 with
  | nil => simp
  | cons t ts ih =>
    simp only [List.foldl_cons]
    rw [ih]
    by_cases hmem : k ∈ ts
    · rw [if_pos hmem, if_pos (List.mem_cons_of_mem t hmem)]
    · rw [if_neg hmem]
      by_cases htk : t = k
      · subst htk
        rw [dictGet_insert_self, if_pos (List.mem_cons_self t ts)]
      · have hne : k ∉ t :: ts := by
          intro hc
          rcases List.mem_cons.mp hc with h1 | h1
          · exact htk h1.symm
          · exact hmem h1
        rw [if_neg hne]
        exact dictGet_insert_ne d0 t k (f t) (fun hh => htk hh.symm)

/-- Every binding produced by a fold of unconditional inserts carries the
key-determined value, for a key drawn from the folded list. -/
theorem mem_dictFoldAll {κ β : Type} [DecidableEq κ] (f : κ → β)
    (ts : List κ) (d0 : List (κ × β)) (q : κ × β)
    (hq : q ∈ ts.foldl (fun d x => dictInsert d x (f x)) d0) :
    q ∈ d0 ∨ (q.1 ∈ ts ∧ q.2 = f q.1) := by
  induction ts generalizing d0 with
  | nil =>
    simp only [List.foldl_nil] at hq
    left; exact hq
  | cons t ts ih =>
    simp only [List.foldl_cons] at hq
    rcases ih _ hq with h | h
    · rcases mem_dictInsert d0 t (f t) q h with h' | h'
      · left; exact h'
      · subst h'
        right
        exact ⟨List.mem_cons_self t ts, rfl⟩
    · right; exact ⟨List.mem_cons_of_mem _ h.1, h.2⟩

/-!
## Python `max` lemmas
-/

theorem isVal_iff (x : PFloat) : x.isVal = true ↔ ∃ r, x = val r := by
  cases x <;> simp [PFloat.isVal]

theorem pyGt_val (a b : ℚ) : pyGt (val a) (val b) = decide (b < a) := rfl

theorem pyEqB_val (a b : ℚ) : pyEqB (val a) (val b) = decide (a = b) := rfl

theorem pyLe_val (a b : ℚ) : pyLe (val a) (val b) = decide (a ≤ b) := by
  show (decide (a < b) || decide (a = b)) = decide (a ≤ b)
  by_cases h : a ≤ b
  · rcases lt_or_eq_of_le h with h' | h'
    · simp [h, h']
    · simp [h, h']
  · have h1 : ¬(a < b) := fun hc => h (le_of_lt hc)
    have h2 : ¬(a = b) := fun hc => h (le_of_eq hc)
    simp [h, h1, h2]

theorem foldPick_mem {κ : Type} (l : List (κ × PFloat)) (p : κ × PFloat) :
    l.foldl (fun b a => if pyGt a.2 b.2 then a else b) p ∈ p :: l := by
  induction l generalizing p with
  | nil => simp
  | cons a t ih =>
    simp only [List.foldl_cons]
    rcases List.mem_cons.mp (ih (if pyGt a.2 p.2 then a else p)) with h | h
    · rw [h]
      split
      · exact List.mem_cons_of_mem _ (List.mem_cons_self a t)
      · exact List.mem_cons_self p _
    · exact List.mem_cons_of_mem _ (List.mem_cons_of_mem _ h)

theorem foldPick_snd {κ : Type} (l : List (κ × PFloat)) (p : κ × PFloat) :
    (l.foldl (fun b a => if pyGt a.2 b.2 then a else b) p).2
      = (l.map Prod.snd).foldl (fun b a => if pyGt a b then a else b) p.2 := by
  induction l generalizing p with
  | nil => rfl
  | cons a t ih =>
    simp only [List.foldl_cons, List.map_cons]
    rw [ih]
    by_cases h : pyGt a.2 p.2 = true
    · rw [if_pos h, if_pos h]
    · rw [if_neg h, if_neg h]

/-- When every value is finite, the running Python maximum dominates
every element of the scanned list. -/
theorem foldPick_le {κ : Type} (l : List (κ × PFloat)) (p : κ × PFloat)
    (hf : ∀ q ∈ p :: l, q.2.isVal = true) :
    ∀ q ∈ p :: l, pyLe q.2 (l.foldl (fun b a => if pyGt a.2 b.2 then a else b) p).2 = true := by
  induction l generalizing p with
  | nil =>
    intro q hq
    rw [List.mem_singleton] at hq
    rw [hq]
    rcases (isVal_iff _).mp (hf p (List.mem_cons_self p [])) with ⟨x, hx⟩
    simp [hx, pyLe_val]
  | cons a t ih =>
    intro q hq
    simp only [List.foldl_cons]
    have hfp : p.2.isVal = true := hf p (List.mem_cons_self _ _)
    have hfa : a.2.isVal = true := hf a (List.mem_cons_of_mem _ (List.mem_cons_self _ _))
    rcases (isVal_iff _).mp hfp with ⟨xp, hxp⟩
    rcases (isVal_iff _).mp hfa with ⟨xa, hxa⟩
    by_cases hgt : pyGt a.2 p.2 = true
    · rw [if_pos hgt]
      have hf' : ∀ q' ∈ a :: t, q'.2.isVal = true := by
        intro q' hq'
        rcases List.mem_cons.mp hq' with h | h
        · rw [h]; exact hfa
        · exact hf _ (List.mem_cons_of_mem _ (List.mem_cons_of_mem _ h))
      have ih' := ih a hf'
      have hMval : (t.foldl (fun b a => if pyGt a.2 b.2 then a else b) a).2.isVal = true :=
        hf' _ (foldPick_mem t a)
      rcases (isVal_iff _).mp hMval with ⟨xm, hxm⟩
      rcases List.mem_cons.mp hq with hqp | hq2
      · rw [hqp]
        have ham := ih' a (List.mem_cons_self _ _)
        rw [hxa, hxm, pyLe_val, decide_eq_true_eq] at ham
        have hlt : xp < xa := by
          rw [hxa, hxp, pyGt_val, decide_eq_true_eq] at hgt
          exact hgt
        rw [hxp, hxm, pyLe_val, decide_eq_true_eq]
        linarith
      · rcases List.mem_cons.mp hq2 with hqa | hqt
        · rw [hqa]; exact ih' a (List.mem_cons_self _ _)
        · exact ih' q (List.mem_cons_of_mem _ hqt)
    · rw [if_neg hgt]
      have hf' : ∀ q' ∈ p :: t, q'.2.isVal = true := by
        intro q' hq'
        rcases List.mem_cons.mp hq' with h | h
        · rw [h]; exact hfp
        · exact hf _ (List.mem_cons_of_mem _ (List.mem_cons_of_mem _ h))
      have ih' := ih p hf'
      have hMval : (t.foldl (fun b a => if pyGt a.2 b.2 then a else b) p).2.isVal = true :=
        hf' _ (foldPick_mem t p)
      rcases (isVal_iff _).mp hMval with ⟨xm, hxm⟩
      rcases List.mem_cons.mp hq with hqp | hq2
      · rw [hqp]; exact ih' p (List.mem_cons_self _ _)
      · rcases List.mem_cons.mp hq2 with hqa | hqt
        · rw [hqa]
          have hple := ih' p (List.mem_cons_self _ _)
          rw [hxp, hxm, pyLe_val, decide_eq_true_eq] at hple
          have hale : xa ≤ xp := by
            rw [hxa, hxp, pyGt_val] at hgt
            rcases le_or_lt xa xp with hc | hc
            · exact hc
            · exact absurd (by rw [decide_eq_true_eq]; exact hc) hgt
          rw [hxa, hxm, pyLe_val, decide_eq_true_eq]
          linarith
        · exact ih' q (List.mem_cons_of_mem _ hqt)

/-- When every value is finite, the Python maximum is the first element
attaining the maximal value — ties broken by first occurrence. -/
theorem foldPick_find {κ : Type} (l : List (κ × PFloat)) (p : κ × PFloat)
    (hf : ∀ q ∈ p :: l, q.2.isVal = true) :
    (p :: l).find? (fun q => pyEqB q.2 ((l.foldl (fun b a => if pyGt a.2 b.2 then a else b) p).2))
      = some (l.foldl (fun b a => if pyGt a.2 b.2 then a else b) p) := by
  induction l generalizing p with
  | nil =>
    rcases (isVal_iff _).mp (hf p (List.mem_cons_self p [])) with ⟨x, hx⟩
    simp [List.find?_cons, hx, pyEqB_val]
  | cons a t ih =>
    simp only [List.foldl_cons]
    have hfp : p.2.isVal = true := hf p (List.mem_cons_self _ _)
    have hfa : a.2.isVal = true := hf a (List.mem_cons_of_mem _ (List.mem_cons_self _ _))
    rcases (isVal_iff _).mp hfp with ⟨xp, hxp⟩
    rcases (isVal_iff _).mp hfa with ⟨xa, hxa⟩
    by_cases hgt : pyGt a.2 p.2 = true
    · rw [if_pos hgt]
      have hf' : ∀ q' ∈ a :: t, q'.2.isVal = true := by
        intro q' hq'
        rcases List.mem_cons.mp hq' with h | h
        · rw [h]; exact hfa
        · exact hf _ (List.mem_cons_of_mem _ (List.mem_cons_of_mem _ h))
      have ih' := ih a hf'
      have hMval : (t.foldl (fun b a => if pyGt a.2 b.2 then a else b) a).2.isVal = true :=
        hf' _ (foldPick_mem t a)
      rcases (isVal_iff _).mp hMval with ⟨xm, hxm⟩
      have ham := foldPick_le t a hf' a (List.mem_cons_self _ _)
      rw [hxa, hxm, pyLe_val, decide_eq_true_eq] at ham
      have hlt : xp < xa := by
        rw [hxa, hxp, pyGt_val, decide_eq_true_eq] at hgt
        exact hgt
      have hpred : ¬((fun q => pyEqB q.2
          ((t.foldl (fun b a => if pyGt a.2 b.2 then a else b) a).2)) p = true) := by
        show ¬(pyEqB p.2 _ = true)
        rw [hxp, hxm, pyEqB_val, decide_eq_true_eq]
        intro hc
        rw [hc] at hlt
        linarith
      rw [@List.find?_cons_of_neg _
        (fun q => pyEqB q.2 ((t.foldl (fun b a => if pyGt a.2 b.2 then a else b) a).2))
        p (a :: t) hpred]
      exact ih'
    · rw [if_neg hgt]
      have hf' : ∀ q' ∈ p :: t, q'.2.isVal = true := by
        intro q' hq'
        rcases List.mem_cons.mp hq' with h | h
        · rw [h]; exact hfp
        · exact hf _ (List.mem_cons_of_mem _ (List.mem_cons_of_mem _ h))
      have ih' := ih p hf'
      have hMval : (t.foldl (fun b a => if pyGt a.2 b.2 then a else b) p).2.isVal = true :=
        hf' _ (foldPick_mem t p)
      rcases (isVal_iff _).mp hMval with ⟨xm, hxm⟩
      by_cases hpm : (fun q => pyEqB q.2
          ((t.foldl (fun b a => if pyGt a.2 b.2 then a else b) p).2)) p = true
      · rw [@List.find?_cons_of_pos _
          (fun q => pyEqB q.2 ((t.foldl (fun b a => if pyGt a.2 b.2 then a else b) p).2))
          p t hpm] at ih'
        rw [@List.find?_cons_of_pos _
          (fun q => pyEqB q.2 ((t.foldl (fun b a => if pyGt a.2 b.2 then a else b) p).2))
          p (a :: t) hpm]
        exact ih'
      · rw [@List.find?_cons_of_neg _
          (fun q => pyEqB q.2 ((t.foldl (fun b a => if pyGt a.2 b.2 then a else b) p).2))
          p t hpm] at ih'
        rw [@List.find?_cons_of_neg _
          (fun q => pyEqB q.2 ((t.foldl (fun b a => if pyGt a.2 b.2 then a else b) p).2))
          p (a :: t) hpm]
        have hple := foldPick_le t p hf' p (List.mem_cons_self _ _)
        rw [hxp, hxm, pyLe_val, decide_eq_true_eq] at hple
        have hale : xa ≤ xp := by
          rw [hxa, hxp, pyGt_val] at hgt
          rcases le_or_lt xa xp with hc | hc
          · exact hc
          · exact absurd (by rw [decide_eq_true_eq]; exact hc) hgt
        have hpreda : ¬((fun q => pyEqB q.2
            ((t.foldl (fun b a => if pyGt a.2 b.2 then a else b) p).2)) a = true) := by
          show ¬(pyEqB a.2 _ = true)
          rw [hxa, hxm, pyEqB_val, decide_eq_true_eq]
          intro hc
          apply hpm
          show pyEqB p.2 _ = true
          rw [hxp, hxm, pyEqB_val, decide_eq_true_eq]
          linarith
        rw [@List.find?_cons_of_neg _
          (fun q => pyEqB q.2 ((t.foldl (fun b a => if pyGt a.2 b.2 then a else b) p).2))
          a t hpreda]
        exact ih'

/-!
## Variance lemmas
-/

theorem pAdd_eq_val {x y : PFloat} {z : ℚ} (h : pAdd x y = val z) :
    ∃ xa ya, x = val xa ∧ y = val ya ∧ z = xa + ya := by
  cases x <;> cases y <;> simp [pAdd] at h
  exact ⟨_, _, rfl, rfl, h.symm⟩

theorem pMul_self_eq_val {x : PFloat} {z : ℚ} (h : pMul x x = val z) :
    ∃ r, x = val r ∧ z = r * r := by
  cases x <;> simp [pMul] at h
  exact ⟨_, rfl, h.symm⟩

theorem pDiv_val_val {a b : ℚ} (hb : b ≠ 0) : pDiv (val a) (val b) = val (a / b) := by
  simp [pDiv, hb]

theorem foldl_pAdd_val {l : List PFloat} {acc : PFloat} {s : ℚ}
    (h : l.foldl pAdd acc = val s) :
    ∃ (qs : List ℚ) (a : ℚ), l = qs.map val ∧ acc = val a ∧ s = a + qs.sum := by
  induction l generalizing acc with
  | nil =>
    refine ⟨[], s, rfl, h, by simp⟩
  | cons x t ih =>
    simp only [List.foldl_cons] at h
    rcases ih h with ⟨qs, a, ht, hacc, hs⟩
    rcases pAdd_eq_val hacc with ⟨a1, a2, hacc1, hx, ha⟩
    refine ⟨a2 :: qs, a1, ?_, hacc1, ?_⟩
    · rw [List.map_cons, ← ht, ← hx]
    · rw [hs, ha, List.sum_cons]
      ring

theorem foldl_pAdd_map_val (l : List ℚ) (a : ℚ) :
    (l.map val).foldl pAdd (val a) = val (a + l.sum) := by
  induction l generalizing a with
  | nil => simp
  | cons x t ih =>
    simp only [List.map_cons, List.foldl_cons]
    show (t.map val).foldl pAdd (val (a + x)) = _
    rw [ih, List.sum_cons]
    congr 1
    ring

theorem pSum_map_val (l : List ℚ) : pSum (l.map val) = val l.sum := by
  rw [pSum, foldl_pAdd_map_val]
  congr 1
  ring

/-- Pandas `Series.var()` never returns a negative value: a finite result is
nonnegative. -/
theorem pandasVar_nonneg {l : List PFloat} {q : ℚ} (h : pandasVar l = val q) : 0 ≤ q := by
  simp only [pandasVar] at h
  split at h
  · exact absurd h (by simp)
  · rename_i hn
    rcases hS : pSum ((l.filter (fun x => !x.isNan)).map
        (fun x => pMul (pSub x (pDiv (pSum (l.filter (fun x => !x.isNan)))
          (val ((l.filter (fun x => !x.isNan)).length)))) (pSub x (pDiv (pSum (l.filter (fun x => !x.isNan)))
          (val ((l.filter (fun x => !x.isNan)).length)))))) with s | _ | _ | _
    all_goals rw [hS] at h
    · have hnlen : ((((l.filter (fun x => !x.isNan)).length - 1 : ℕ)) : ℚ) ≠ 0 := by
        have : 2 ≤ (l.filter (fun x => !x.isNan)).length := by omega
        have h1 : 1 ≤ (l.filter (fun x => !x.isNan)).length - 1 := by omega
        positivity
      rw [pDiv_val_val hnlen] at h
      have hq : q = s / (((l.filter (fun x => !x.isNan)).length - 1 : ℕ) : ℚ) := by
        exact (PFloat.val.injEq _ _ ▸ h).symm
      rcases foldl_pAdd_val hS with ⟨qs, a, hmap, hacc, hsum⟩
      have ha0 : a = (0 : ℚ) := by
        have := hacc
        simp only at this
        exact (PFloat.val.injEq _ _ ▸ this).symm
      have hqs : ∀ y ∈ qs, 0 ≤ y := by
        intro y hy
        have hmem : val y ∈ (l.filter (fun x => !x.isNan)).map
            (fun x => pMul (pSub x (pDiv (pSum (l.filter (fun x => !x.isNan)))
              (val ((l.filter (fun x => !x.isNan)).length)))) (pSub x (pDiv (pSum (l.filter (fun x => !x.isNan)))
              (val ((l.filter (fun x => !x.isNan)).length))))) := by
          rw [hmap]
          exact List.mem_map_of_mem val hy
        rcases List.mem_map.mp hmem with ⟨x, _, hx⟩
        rcases pMul_self_eq_val hx with ⟨r, _, hr⟩
        rw [hr]
        exact mul_self_nonneg r
      have hs0 : 0 ≤ s := by
        rw [hsum, ha0, zero_add]
        exact List.sum_nonneg hqs
      rw [hq]
      positivity
    · simp [pDiv] at h
      split at h <;> simp at h
    · simp [pDiv] at h
      split at h <;> simp at h
    · simp [pDiv] at h

/-- On fully defined data, `Series.var()` computes exactly the unbiased
(N−1) sample variance of the spec. -/
theorem pandasVar_map_val (qs : List ℚ) (h2 : 2 ≤ qs.length) :
    pandasVar (qs.map val) = val (sampleVarianceUnbiasedSpec qs) := by
  have hfilter : (qs.map val).filter (fun x => !x.isNan) = qs.map val := by
    apply List.filter_eq_self.mpr
    intro x hx
    rcases List.mem_map.mp hx with ⟨r, _, hr⟩
    rw [← hr]
    rfl
  have hlen : ((qs.length : ℚ)) ≠ 0 := by
    have : 0 < qs.length := by omega
    positivity
  simp only [pandasVar, hfilter, List.length_map]
  rw [if_neg (by omega)]
  rw [pSum_map_val, pDiv_val_val hlen]
  have hmap : (qs.map val).map
      (fun x => pMul (pSub x (val (qs.sum / qs.length))) (pSub x (val (qs.sum / qs.length))))
      = (qs.map (fun r => (r - qs.sum / qs.length) * (r - qs.sum / qs.length))).map val := by
    rw [List.map_map, List.map_map]
    apply List.map_congr_left
    intro r _
    show val ((r + -(qs.sum / qs.length)) * (r + -(qs.sum / qs.length)))
      = val ((r - qs.sum / qs.length) * (r - qs.sum / qs.length))
    congr 1
    ring
  rw [hmap, pSum_map_val]
  have hcast : (((qs.length - 1 : ℕ)) : ℚ) = (qs.length : ℚ) - 1 := by
    have h1 : 1 ≤ qs.length := by omega
    push_cast [Nat.cast_sub h1]
    ring
  have hden : (((qs.length - 1 : ℕ)) : ℚ) ≠ 0 := by
    rw [hcast]
    intro hc
    have hq1 : (qs.length : ℚ) = 1 := by linarith
    have hn1 : qs.length = 1 := by exact_mod_cast hq1
    omega
  rw [pDiv_val_val hden]
  rw [sampleVarianceUnbiasedSpec, hcast]
  congr 2
  congr 1
  apply List.map_congr_left
  intro x _
  ring

theorem pAdd_nan_left (x : PFloat) : pAdd nan x = nan := by
  cases x <;> rfl

theorem pAdd_nan_right (x : PFloat) : pAdd x nan = nan := by
  cases x <;> rfl

theorem foldl_pAdd_nan (l : List PFloat) : l.foldl pAdd nan = nan := by
  induction l with
  | nil => rfl
  | cons x t ih =>
    simp only [List.foldl_cons, pAdd_nan_left]
    exact ih

theorem pSum_all_nan (l : List PFloat) (hne : l ≠ []) (h : ∀ x ∈ l, x = nan) : pSum l = nan := by
  cases l with
  | nil => exact absurd rfl hne
  | cons x t =>
    have hx := h x (List.mem_cons_self _ _)
    rw [pSum, List.foldl_cons, hx, pAdd_nan_right]
    exact foldl_pAdd_nan t

theorem foldl_pAdd_pinf_replicate (k : ℕ) : (List.replicate k pinf).foldl pAdd pinf = pinf := by
  induction k with
  | zero => rfl
  | succ n ih =>
    rw [List.replicate_succ, List.foldl_cons]
    exact ih

theorem foldl_pAdd_ninf_replicate (k : ℕ) : (List.replicate k ninf).foldl pAdd ninf = ninf := by
  induction k with
  | zero => rfl
  | succ n ih =>
    rw [List.replicate_succ, List.foldl_cons]
    exact ih

/-- On a series whose defined entries are all the same value, pandas
sample variance is exactly zero or undefined (nan). -/
theorem pandasVar_dropNan_two_valued (l : List PFloat) (w : PFloat)
    (h : ∀ x ∈ l, x = nan ∨ x = w) :
    pandasVar (dropNan l) = val 0 ∨ pandasVar (dropNan l) = nan := by
  by_cases hw : w = nan
  · have hnil : dropNan l = [] := by
      rw [dropNan, List.filter_eq_nil_iff]
      intro x hx
      rcases h x hx with h' | h'
      · simp [h', PFloat.isNan]
      · simp [h', hw, PFloat.isNan]
    right
    rw [hnil]
    rfl
  · have hmem : ∀ x ∈ dropNan l, x = w := by
      intro x hx
      have hx' := List.of_mem_filter hx
      have hxl := List.mem_of_mem_filter hx
      rcases h x hxl with h' | h'
      · rw [h'] at hx'
        simp [PFloat.isNan] at hx'
      · exact h'
    have hrep : dropNan l = List.replicate (dropNan l).length w :=
      List.eq_replicate_of_mem hmem
    rw [hrep]
    generalize (dropNan l).length = m
    by_cases hm : m < 2
    · right
      have hfil : (List.replicate m w).filter (fun x => !x.isNan) = List.replicate m w := by
        apply List.filter_eq_self.mpr
        intro x hx
        rw [List.eq_of_mem_replicate hx]
        cases w
        · rfl
        · rfl
        · rfl
        · exact absurd rfl hw
      simp only [pandasVar, hfil, List.length_replicate]
      rw [if_pos hm]
    · cases w with
      | nan => exact absurd rfl hw
      | val r =>
        left
        have hmapv : List.replicate m (val r) = (List.replicate m r).map val := by
          rw [List.map_replicate]
        rw [hmapv]
        rw [pandasVar_map_val _ (by rw [List.length_replicate]; omega)]
        have hm0 : ((m : ℚ)) ≠ 0 := by
          have : 0 < m := by omega
          positivity
        have hmean : (List.replicate m r).sum / (((List.replicate m r).length : ℕ) : ℚ) = r := by
          rw [List.sum_replicate, nsmul_eq_mul, List.length_replicate]
          field_simp
        have hzero : (List.replicate m r).map
            (fun x => (x - (List.replicate m r).sum / (((List.replicate m r).length : ℕ) : ℚ)) ^ 2)
            = List.replicate m (0 : ℚ) := by
          simp only [List.map_replicate]
          rw [hmean]
          congr 1
          ring
        rw [sampleVarianceUnbiasedSpec, hzero, List.sum_replicate]
        congr 1
        simp
      | pinf =>
        right
        have hfil : (List.replicate m pinf).filter (fun x => !x.isNan) = List.replicate m pinf := by
          apply List.filter_eq_self.mpr
          intro x hx
          rw [List.eq_of_mem_replicate hx]
          rfl
        simp only [pandasVar, hfil, List.length_replicate]
        rw [if_neg hm]
        obtain ⟨k, rfl⟩ : ∃ k, m = k + 1 := ⟨m - 1, by omega⟩
        have hsum : pSum (List.replicate (k + 1) pinf) = pinf := by
          rw [pSum, List.replicate_succ, List.foldl_cons]
          show (List.replicate k pinf).foldl pAdd pinf = pinf
          exact foldl_pAdd_pinf_replicate k
        rw [hsum]
        have hdiv : pDiv pinf (val ((k + 1 : ℕ) : ℚ)) = pinf := by
          show (if ((k + 1 : ℕ) : ℚ) < 0 then ninf else pinf) = pinf
          rw [if_neg (not_lt.mpr (by positivity))]
        rw [hdiv]
        simp only [List.map_replicate]
        have hsq : pMul (pSub pinf pinf) (pSub pinf pinf) = nan := rfl
        rw [hsq]
        have hnan : pSum (List.replicate (k + 1) nan) = nan := by
          apply pSum_all_nan
          · simp
          · intro x hx
            exact List.eq_of_mem_replicate hx
        rw [hnan]
        rfl
      | ninf =>
        right
        have hfil : (List.replicate m ninf).filter (fun x => !x.isNan) = List.replicate m ninf := by
          apply List.filter_eq_self.mpr
          intro x hx
          rw [List.eq_of_mem_replicate hx]
          rfl
        simp only [pandasVar, hfil, List.length_replicate]
        rw [if_neg hm]
        obtain ⟨k, rfl⟩ : ∃ k, m = k + 1 := ⟨m - 1, by omega⟩
        have hsum : pSum (List.replicate (k + 1) ninf) = ninf := by
          rw [pSum, List.replicate_succ, List.foldl_cons]
          show (List.replicate k ninf).foldl pAdd ninf = ninf
          exact foldl_pAdd_ninf_replicate k
        rw [hsum]
        have hdiv : pDiv ninf (val ((k + 1 : ℕ) : ℚ)) = ninf := by
          show (if ((k + 1 : ℕ) : ℚ) < 0 then pinf else ninf) = ninf
          rw [if_neg (not_lt.mpr (by positivity))]
        rw [hdiv]
        simp only [List.map_replicate]
        have hsq : pMul (pSub ninf ninf) (pSub ninf ninf) = nan := rfl
        rw [hsq]
        have hnan : pSum (List.replicate (k + 1) nan) = nan := by
          apply pSum_all_nan
          · simp
          · intro x hx
            exact List.eq_of_mem_replicate hx
        rw [hnan]
        rfl

/-!
## Degenerate-input lemmas for the variance-ratio test
-/

theorem pMul_val_val (a b : ℚ) : pMul (val a) (val b) = val (a * b) := rfl

theorem pDiv_nan_left (x : PFloat) : pDiv nan x = nan := by
  cases x <;> rfl

theorem pDiv_val_nan (a : ℚ) : pDiv (val a) nan = nan := rfl

theorem pMul_val_nan (a : ℚ) : pMul (val a) nan = nan := rfl

theorem pDiv_zero_zero : pDiv (val 0) (val 0) = nan := by
  simp [pDiv]

/-- A variance ratio whose numerator and denominator variances are each
zero or undefined is nan. -/
theorem vr_nan_of_degenerate (k : ℚ) (v1 vk : PFloat)
    (h1 : v1 = val 0 ∨ v1 = nan) (hk : vk = val 0 ∨ vk = nan) :
    pDiv vk (pMul (val k) v1) = nan := by
  rcases hk with hk | hk
  · rcases h1 with h1 | h1
    · rw [hk, h1, pMul_val_val, mul_zero]
      exact pDiv_zero_zero
    · rw [hk, h1, pMul_val_nan]
      exact pDiv_val_nan 0
  · rw [hk]
    exact pDiv_nan_left _
/-- On a constant mid-price series, every entry of the k-step
log-return series (before dropna) is nan or `log 1`. -/
theorem constMid_logReturn_elems (log : PFloat → PFloat) (mid : List PFloat)
    (c : ℚ) (k : ℕ) (hlog : log nan = nan) (hconst : ∀ x ∈ mid, x = val c) :
    ∀ y ∈ (seriesDiv mid (seriesShift k mid)).map log, y = nan ∨ y = log (val 1) := by
  intro y hy
  rcases List.mem_map.mp hy with ⟨z, hz, hzy⟩
  rcases List.mem_map.mp hz with ⟨p, hp, hpz⟩
  have hp1 : p.1 ∈ mid := (List.of_mem_zip hp).1
  have hp2 : p.2 ∈ seriesShift k mid := (List.of_mem_zip hp).2
  have hc1 : p.1 = val c := hconst _ hp1
  have hc2 : p.2 = nan ∨ p.2 = val c := by
    rcases List.mem_map.mp hp2 with ⟨t, ht, hts⟩
    rw [List.mem_range] at ht
    by_cases htk : t < k
    · left
      rw [← hts, if_pos htk]
    · right
      rw [← hts, if_neg htk]
      rw [getE, List.getD_eq_getElem _ _ (by omega)]
      exact hconst _ (List.getElem_mem _)
  rcases hc2 with hc2 | hc2
  · left
    rw [← hzy, ← hpz, hc1, hc2, pDiv_val_nan, hlog]
  · by_cases hc0 : c = 0
    · left
      rw [← hzy, ← hpz, hc1, hc2, hc0]
      rw [pDiv_zero_zero, hlog]
    · right
      rw [← hzy, ← hpz, hc1, hc2, pDiv_val_val hc0, div_self hc0]

/-!
## C4 — sampler scheduling
-/

/-- C4 counterexample: with a 10-second interval and the loop 5 seconds
behind schedule (more than one second, but not more than one interval),
the code emits the behind-schedule warning, contradicting the claim that
the warning fires exactly when more than one interval behind. -/
theorem C4_counterexample_warning_threshold :
    (sampler_tick 0 5 10).warned = true ∧ ¬((10 : ℚ) < 5 - 0) := by
  constructor
  · simp only [sampler_tick]
    norm_num
  · norm_num

/-- C4 (amended): each tick sleeps `max 0 (target − now)`, emits the
behind-schedule warning exactly when the loop is more than one *second*
(not one interval) behind, and advances the target by exactly one
interval, so after any run of ticks the target stays anchored to the
fixed grid `start + n·interval`. -/
theorem C4_amended_sampler_schedule :
    (∀ tgt now interval : ℚ,
      (sampler_tick tgt now interval).sleep = max 0 (tgt - now) ∧
      ((sampler_tick tgt now interval).warned = true ↔ 1 < now - tgt) ∧
      (sampler_tick tgt now interval).nextTarget = tgt + interval) ∧
    (∀ (t0 interval : ℚ) (nows : List ℚ),
      samplerTargetAfter t0 interval nows = t0 + nows.length * interval) := by
  constructor
  · intro tgt now interval
    refine ⟨?_, ?_, rfl⟩
    · simp only [sampler_tick]
      by_cases h : 0 < tgt - now
      · rw [if_pos h, max_eq_right (le_of_lt h)]
      · rw [if_neg h, max_eq_left (by linarith [not_lt.mp h])]
    · simp only [sampler_tick]
      by_cases h : 0 < tgt - now
      · rw [if_pos h]
        constructor
        · intro hc
          exact absurd hc (by simp)
        · intro hc
          linarith
      · rw [if_neg h, decide_eq_true_eq]
        constructor
        · intro hc
          linarith
        · intro hc
          linarith
  · intro t0 interval nows
    induction nows generalizing t0 with
    | nil => simp [samplerTargetAfter]
    | cons now t ih =>
      rw [samplerTargetAfter, List.foldl_cons]
      have hnt : (sampler_tick t0 now interval).nextTarget = t0 + interval := rfl
      rw [hnt]
      have := ih (t0 + interval)
      rw [samplerTargetAfter] at this
      rw [this, List.length_cons]
      push_cast
      ring

/-!
## C5 — collection loop bookkeeping
-/

theorem collect_foldl (α : Type) (fetches : List (Option α)) (acc : CollectAcc α) :
    fetches.foldl collect_step acc =
      ⟨acc.snapshots ++ fetches.filterMap id,
       acc.snapshot_count + (fetches.filterMap id).length,
       acc.errors + (fetches.filter Option.isNone).length⟩ := by
  induction fetches generalizing acc with
  | nil => simp
  | cons f t ih =>
    cases f with
    | some s =>
      simp only [List.foldl_cons, collect_step]
      rw [ih]
      simp [List.filterMap_cons, List.filter_cons, List.append_assoc]
      omega
    | none =>
      simp only [List.foldl_cons, collect_step]
      rw [ih]
      simp [List.filterMap_cons, List.filter_cons, Option.isNone]
      omega

/-- C5: the collection run yields the failure signal (`None`) exactly
when no snapshot was captured; with at least one success it returns the
full accumulated sequence in order, and each fetch failure only
increments the error counter while the loop continues through every
tick. -/
theorem C5_failure_iff_no_snapshot (α : Type) (fetches : List (Option α)) :
    ((collect_orderbook_data fetches).1 = none ↔ fetches.filterMap id = []) ∧
    (fetches.filterMap id ≠ [] →
      (collect_orderbook_data fetches).1 = some (fetches.filterMap id)) ∧
    ((collect_orderbook_data fetches).2.1 = (fetches.filterMap id).length ∧
     (collect_orderbook_data fetches).2.2 = (fetches.filter Option.isNone).length) := by
  have h := collect_foldl α fetches ⟨[], 0, 0⟩
  simp only [collect_orderbook_data, h, List.nil_append, Nat.zero_add]
  by_cases hL : fetches.filterMap id = []
  · simp [hL]
  · simp [hL, List.isEmpty_iff]

/-- C5 witness: a run with one success among two failures returns the
singleton sequence, not the failure signal. -/
theorem C5_failure_iff_no_snapshot_witness :
    ([none, some 3, none].filterMap id ≠ ([] : List ℕ)) ∧
    (collect_orderbook_data [none, some 3, none]).1 = some ([3] : List ℕ) := by
  have h := C5_failure_iff_no_snapshot ℕ [none, some 3, none]
  refine ⟨by decide, ?_⟩
  have h2 := h.2.1 (by decide)
  simpa using h2

/-!
## C2 — constant mid-price (Scenario A)
-/

/-- C2 counterexample: on a constant mid-price frame every variance
ratio and the average are nan, yet `market_characterization` silently
falls through to the random-walk label instead of reporting the
undefined case explicitly. -/
theorem C2_counterexample_constant_mid :
    test_market_efficiency id dfC2 [2, 5]
      = .ok ⟨[(2, nan), (5, nan)], nan, "Approximately efficient (random walk)"⟩ ∧
    (∀ x ∈ [val (1 : ℚ), val 1, val 1, val 1], x = val (1 : ℚ)) := by
  constructor
  · norm_num [test_market_efficiency, dfC2, getCol, dictGet, dictInsert, logReturnsK,
      dropNan, seriesDiv, seriesShift, pandasVar, pSum, pMean, pDiv, pMul, pAdd, pSub, pNeg,
      PFloat.isNan, getE, List.range_succ, pyGt, pyLt, List.filter]
  · decide

/-- C2 (amended): on a frame whose mid_price is constant, the
variance-ratio test does not crash, every reported `VR(k)` and
`average_vr` are nan (propagated, never coerced to a default), and the
returned `market_characterization` silently falls through to
"Approximately efficient (random walk)" — the undefined case is not
reported explicitly. -/
theorem C2_amended_constant_mid (log : PFloat → PFloat) (df : Df) (lags : List ℕ)
    (mid : List PFloat) (c : ℚ)
    (hlog : log nan = nan)
    (hm : getCol df "mid_price" = some mid)
    (hconst : ∀ x ∈ mid, x = val c) :
    ∃ r, test_market_efficiency log df lags = .ok r ∧
      (∀ p ∈ r.variance_ratios, p.2 = nan) ∧
      (∀ k ∈ lags, dictGet r.variance_ratios k = some nan) ∧
      r.average_vr = nan ∧
      r.market_characterization = "Approximately efficient (random walk)" := by
  have hvar : ∀ k : ℕ, pandasVar (logReturnsK log mid k) = val 0 ∨
      pandasVar (logReturnsK log mid k) = nan := by
    intro k
    rw [logReturnsK]
    exact pandasVar_dropNan_two_valued _ (log (val 1))
      (constMid_logReturn_elems log mid c k hlog hconst)
  have hfk : ∀ k : ℕ,
      pDiv (pandasVar (logReturnsK log mid k))
        (pMul (val (k : ℚ)) (pandasVar (logReturnsK log mid 1))) = nan := by
    intro k
    exact vr_nan_of_degenerate (k : ℚ) _ _ (hvar 1) (hvar k)
  simp only [test_market_efficiency, hm]
  refine ⟨_, rfl, ?_, ?_, ?_, ?_⟩
  · intro p hp
    rcases mem_dictFoldAll
        (fun k => pDiv (pandasVar (logReturnsK log mid k))
          (pMul (val (k : ℚ)) (pandasVar (logReturnsK log mid 1))))
        lags [] p hp with h | h
    · simp at h
    · rw [h.2]
      exact hfk p.1
  · intro k hk
    rw [dictFoldAll_get
        (fun k => pDiv (pandasVar (logReturnsK log mid k))
          (pMul (val (k : ℚ)) (pandasVar (logReturnsK log mid 1))))
        lags [] k]
    rw [if_pos hk, hfk k]
  · show pMean _ = nan
    by_cases hl : (lags.foldl (fun d k => dictInsert d k
        (pDiv (pandasVar (logReturnsK log mid k))
          (pMul (val (k : ℚ)) (pandasVar (logReturnsK log mid 1))))) []).map Prod.snd = []
    · rw [pMean, if_pos (by rw [hl]; rfl)]
    · rw [pMean, if_neg (by rw [List.isEmpty_iff]; exact hl)]
      rw [pSum_all_nan _ hl ?hnan]
      · exact pDiv_nan_left _
      · intro x hx
        rcases List.mem_map.mp hx with ⟨p, hp, hpx⟩
        rcases mem_dictFoldAll
            (fun k => pDiv (pandasVar (logReturnsK log mid k))
              (pMul (val (k : ℚ)) (pandasVar (logReturnsK log mid 1))))
            lags [] p hp with h | h
        · simp at h
        · rw [← hpx, h.2]
          exact hfk p.1
  · show (if pyGt (pMean _) (val (11/10)) then _ else _) = _
    have hmean : pMean ((lags.foldl (fun d k => dictInsert d k
        (pDiv (pandasVar (logReturnsK log mid k))
          (pMul (val (k : ℚ)) (pandasVar (logReturnsK log mid 1))))) []).map Prod.snd) = nan := by
      by_cases hl : (lags.foldl (fun d k => dictInsert d k
          (pDiv (pandasVar (logReturnsK log mid k))
            (pMul (val (k : ℚ)) (pandasVar (logReturnsK log mid 1))))) []).map Prod.snd = []
      · rw [pMean, if_pos (by rw [hl]; rfl)]
      · rw [pMean, if_neg (by rw [List.isEmpty_iff]; exact hl)]
        rw [pSum_all_nan _ hl ?hnan2]
        · exact pDiv_nan_left _
        · intro x hx
          rcases List.mem_map.mp hx with ⟨p, hp, hpx⟩
          rcases mem_dictFoldAll
              (fun k => pDiv (pandasVar (logReturnsK log mid k))
                (pMul (val (k : ℚ)) (pandasVar (logReturnsK log mid 1))))
              lags [] p hp with h | h
          · simp at h
          · rw [← hpx, h.2]
            exact hfk p.1
    rw [hmean]
    rfl

/-- C2 witness: the amended statement instantiated on the concrete
constant frame `dfC2` with `log := id`. -/
theorem C2_amended_constant_mid_witness :
    ∃ r, test_market_efficiency id dfC2 [2, 5] = .ok r ∧
      (∀ p ∈ r.variance_ratios, p.2 = nan) ∧
      (∀ k ∈ [2, 5], dictGet r.variance_ratios k = some nan) ∧
      r.average_vr = nan ∧
      r.market_characterization = "Approximately efficient (random walk)" :=
  C2_amended_constant_mid id dfC2 [2, 5] [val 1, val 1, val 1, val 1] 1
    rfl rfl (by decide)

/-!
## C8 — variance-ratio arithmetic
-/

/-- C8 counterexample: on `mid_price = [1, 2, 5]` with lag 2 the 1-step
return variance is finite and positive (`V1 = 1/8 > 0` under `log := id`),
but the 2-step series has a single defined entry, so `Vk` is nan and the
reported `VR(2)` is nan — which is not `≥ 0`.  The claim that
`VR(k) ≥ 0` whenever `V1 > 0` therefore fails. -/
theorem C8_counterexample_undefined_vk :
    test_market_efficiency id dfC8 [2]
      = .ok ⟨[(2, nan)], nan, "Approximately efficient (random walk)"⟩ ∧
    pandasVar (logReturnsK id [val 1, val 2, val 5] 1) = val (1/8) ∧
    ((0 : ℚ) < 1/8) ∧
    pyLe (val 0) nan = false := by
  refine ⟨?_, ?_, by norm_num, rfl⟩
  · norm_num [test_market_efficiency, dfC8, getCol, dictGet, dictInsert, logReturnsK,
      dropNan, seriesDiv, seriesShift, pandasVar, pSum, pMean, pDiv, pMul, pAdd, pSub, pNeg,
      PFloat.isNan, getE, List.range_succ, pyGt, pyLt, List.filter]
  · norm_num [logReturnsK, dropNan, seriesDiv, seriesShift, pandasVar, pSum, pDiv, pMul,
      pAdd, pSub, pNeg, PFloat.isNan, getE, List.range_succ, List.filter]

/-- C8 (amended): every reported variance ratio equals `Vk / (k·V1)`
with `V1`, `Vk` the pandas sample variances of the 1-step and k-step
log-return series — which on fully defined data are exactly the spec's
unbiased (N−1) estimator; whenever `V1 > 0` *and* `Vk` is defined
(finite), the reported `VR(k)` equals `vk/(k·v1) ≥ 0`; and `average_vr`
is the float mean of the reported ratios. -/
theorem C8_amended_variance_ratio (log : PFloat → PFloat) (df : Df) (lags : List ℕ)
    (mid : List PFloat) (k : ℕ) (v1 vk : ℚ)
    (hm : getCol df "mid_price" = some mid)
    (hk : k ∈ lags) (hkpos : 0 < k)
    (hv1 : pandasVar (logReturnsK log mid 1) = val v1) (hv1pos : 0 < v1)
    (hvk : pandasVar (logReturnsK log mid k) = val vk) :
    ∃ r, test_market_efficiency log df lags = .ok r ∧
      dictGet r.variance_ratios k = some (val (vk / (k * v1))) ∧
      0 ≤ vk / (k * v1) ∧
      r.average_vr = pMean (r.variance_ratios.map Prod.snd) ∧
      (∀ qs : List ℚ, 2 ≤ qs.length →
        pandasVar (qs.map val) = val (sampleVarianceUnbiasedSpec qs)) := by
  have hden : ((k : ℚ)) * v1 ≠ 0 := by positivity
  simp only [test_market_efficiency, hm]
  refine ⟨_, rfl, ?_, ?_, rfl, ?_⟩
  · rw [dictFoldAll_get
        (fun k => pDiv (pandasVar (logReturnsK log mid k))
          (pMul (val (k : ℚ)) (pandasVar (logReturnsK log mid 1))))
        lags [] k]
    rw [if_pos hk, hvk, hv1, pMul_val_val, pDiv_val_val hden]
  · have hvknn : 0 ≤ vk := pandasVar_nonneg hvk
    positivity
  · intro qs h2
    exact pandasVar_map_val qs h2

/-- C8 witness: on `mid_price = [1, 2, 4, 16]`, lag 2 and `log := id`,
`V1 = 4/3 > 0`, `Vk = 8`, and the reported `VR(2) = 8/(2·4/3) = 3 ≥ 0`. -/
theorem C8_amended_variance_ratio_witness :
    ∃ r, test_market_efficiency id dfC8W [2] = .ok r ∧
      dictGet r.variance_ratios 2 = some (val (8 / (2 * (4/3)))) ∧
      (0 : ℚ) ≤ 8 / (2 * (4/3)) ∧
      r.average_vr = pMean (r.variance_ratios.map Prod.snd) ∧
      (∀ qs : List ℚ, 2 ≤ qs.length →
        pandasVar (qs.map val) = val (sampleVarianceUnbiasedSpec qs)) := by
  have h := C8_amended_variance_ratio id dfC8W [2] [val 1, val 2, val 4, val 16] 2 (4/3) 8
    rfl (by decide) (by decide)
    (by norm_num [logReturnsK, dropNan, seriesDiv, seriesShift, pandasVar, pSum, pDiv, pMul,
      pAdd, pSub, pNeg, PFloat.isNan, getE, List.range_succ, List.filter])
    (by norm_num)
    (by norm_num [logReturnsK, dropNan, seriesDiv, seriesShift, pandasVar, pSum, pDiv, pMul,
      pAdd, pSub, pNeg, PFloat.isNan, getE, List.range_succ, List.filter])
  simpa using h

/-!
## C1 — frame mutation
-/

/-- The imbalance test evaluated on the concrete frame `dfC1`: the
returned frame has gained a `returns` column. -/
theorem dfC1_run :
    test_imbalance_hypothesis id dfC1 [1] [1/2]
      = .ok (⟨[(1, nan)], 1, []⟩, dfC1After) := by
  have hm : getCol dfC1 "mid_price" = some [val 1, val 2] := rfl
  have hi : getCol dfC1 "imbalance_5" = some [val (1/2), val (1/2)] := rfl
  have hs1 : ("mid_price" : String) ≠ "returns" := by decide
  have hs2 : ("imbalance_5" : String) ≠ "returns" := by decide
  have hret : forwardReturns [val 1, val 2] 1 = [val 1, nan] := by
    norm_num [forwardReturns, pctChange, seriesDiv, seriesShift, seriesShiftNeg, getE,
      pDiv, pSub, pAdd, pNeg, List.range_succ]
  have hpear : pearson id [val (1/2), val (1/2)] [val 1, nan] = nan := by
    norm_num [pearson, PFloat.isNan, pSum, pDiv, pMul, pAdd, pSub, pNeg, List.filter]
  simp only [test_imbalance_hypothesis, hm, hi, List.foldl_cons, List.foldl_nil,
    dictInsert, hret, hpear, pyMaxPairs]
  norm_num [strongRows, rowAllDefined, nRows, setCol, dictInsert, getE, pAbs, pyGt, pyLt,
    dfC1, dfC1After, List.range_succ, PFloat.isNan, matchCount, hs1, hs2, abs_of_pos]

/-- C1 counterexample: calling the imbalance test on `dfC1` changes the
caller's frame — a `returns` column, absent from the input, is present
in the frame after the call, so the function is not side-effect-free. -/
theorem C1_counterexample_returns_column :
    test_imbalance_hypothesis id dfC1 [1] [1/2]
      = .ok (⟨[(1, nan)], 1, []⟩, dfC1After) ∧
    dfC1After ≠ dfC1 ∧
    getCol dfC1 "returns" = none ∧ getCol dfC1After "returns" = some [val 1, nan] := by
  refine ⟨dfC1_run, ?_, rfl, rfl⟩
  intro hc
  have := congrArg List.length hc
  simp [dfC1, dfC1After] at this

/-- C1 (amended): whenever `test_imbalance_hypothesis` returns a result,
the caller's frame has been written to: it now carries a `returns`
column holding the forward returns at the best horizon (overwriting any
existing `returns` column); every other column is unchanged. -/
theorem C1_amended_returns_mutation (psqrt : PFloat → PFloat) (df : Df)
    (horizons : List ℕ) (thresholds : List ℚ) (r : ImbResult) (df2 : Df)
    (hok : test_imbalance_hypothesis psqrt df horizons thresholds = .ok (r, df2)) :
    ∃ mid, getCol df "mid_price" = some mid ∧
      df2 = setCol df "returns" (forwardReturns mid r.best_horizon) ∧
      ∀ name, name ≠ "returns" → getCol df2 name = getCol df name := by
  cases hm : getCol df "mid_price" with
  | none =>
    simp only [test_imbalance_hypothesis, hm] at hok
    exact absurd hok (by simp)
  | some mid =>
    cases hi : getCol df "imbalance_5" with
    | none =>
      simp only [test_imbalance_hypothesis, hm, hi] at hok
      exact absurd hok (by simp)
    | some imb =>
      simp only [test_imbalance_hypothesis, hm, hi] at hok
      cases hbp : pyMaxPairs (horizons.foldl
          (fun d h => dictInsert d h (pearson psqrt imb (forwardReturns mid h))) []) with
      | none =>
        rw [hbp] at hok
        simp at hok
      | some bp =>
        rw [hbp] at hok
        simp only [Except.ok.injEq, Prod.mk.injEq] at hok
        obtain ⟨hr, hdf⟩ := hok
        refine ⟨mid, rfl, ?_, ?_⟩
        · rw [← hdf, ← hr]
        · intro name hname
          rw [← hdf]
          exact dictGet_insert_ne df "returns" name _ hname

/-- C1 witness: the amended mutation statement at the concrete run on
`dfC1`. -/
theorem C1_amended_returns_mutation_witness :
    ∃ mid, getCol dfC1 "mid_price" = some mid ∧
      dfC1After = setCol dfC1 "returns" (forwardReturns mid 1) ∧
      ∀ name, name ≠ "returns" → getCol dfC1After name = getCol dfC1 name := by
  have hrun : test_imbalance_hypothesis id dfC1 [1] [1/2]
      = .ok (⟨[(1, nan)], 1, []⟩, dfC1After) := dfC1_run
  exact C1_amended_returns_mutation id dfC1 [1] [1/2] ⟨[(1, nan)], 1, []⟩ dfC1After hrun

/-!
## C6 — validation check
-/

/-- The imbalance test evaluated on a frame whose required columns exist
but contain only nan. -/
theorem dfC6_run :
    test_imbalance_hypothesis id dfC6 [1] [3/10]
      = .ok (⟨[(1, nan)], 1, []⟩,
             [("mid_price", [nan, nan, nan]), ("imbalance_5", [nan, nan, nan]),
              ("returns", [nan, nan, nan])]) := by
  have hm : getCol dfC6 "mid_price" = some [nan, nan, nan] := rfl
  have hi : getCol dfC6 "imbalance_5" = some [nan, nan, nan] := rfl
  have hs1 : ("mid_price" : String) ≠ "returns" := by decide
  have hs2 : ("imbalance_5" : String) ≠ "returns" := by decide
  have hret : forwardReturns [nan, nan, nan] 1 = [nan, nan, nan] := by
    norm_num [forwardReturns, pctChange, seriesDiv, seriesShift, seriesShiftNeg, getE,
      pDiv, pSub, pAdd, pNeg, List.range_succ]
  have hpear : pearson id [nan, nan, nan] [nan, nan, nan] = nan := by
    norm_num [pearson, PFloat.isNan, List.filter]
  simp only [test_imbalance_hypothesis, hm, hi, List.foldl_cons, List.foldl_nil,
    dictInsert, hret, hpear, pyMaxPairs]
  norm_num [strongRows, rowAllDefined, nRows, setCol, dictInsert, getE, pAbs, pyGt, pyLt,
    dfC6, List.range_succ, PFloat.isNan, matchCount, hs1, hs2]

/-- C6 counterexample: a frame whose `mid_price` and `imbalance_5`
columns exist but are nowhere defined violates the claimed precondition,
yet the function does not fail — it runs to completion and returns a
result. -/
theorem C6_counterexample_allnan_columns :
    (test_imbalance_hypothesis id dfC6 [1] [3/10]).isOk = true ∧
    specRequiredDefined dfC6 = false := by
  rw [dfC6_run]
  exact ⟨rfl, rfl⟩

/-- C6 (amended): the imbalance test raises its validation error exactly
when one of the required columns is absent from the frame — only column
*presence* is checked, so a frame whose required columns exist but hold
no defined value passes validation and the computation proceeds. -/
theorem C6_amended_validation (psqrt : PFloat → PFloat) (df : Df)
    (horizons : List ℕ) (thresholds : List ℚ) :
    (test_imbalance_hypothesis psqrt df horizons thresholds
        = .error "ValueError: Required columns missing from DataFrame")
      ↔ (getCol df "mid_price" = none ∨ getCol df "imbalance_5" = none) := by
  cases hm : getCol df "mid_price" with
  | none =>
    simp only [test_imbalance_hypothesis, hm]
    simp
  | some mid =>
    cases hi : getCol df "imbalance_5" with
    | none =>
      simp only [test_imbalance_hypothesis, hm, hi]
      simp
    | some imb =>
      simp only [test_imbalance_hypothesis, hm, hi]
      cases hbp : pyMaxPairs (horizons.foldl
          (fun d h => dictInsert d h (pearson psqrt imb (forwardReturns mid h))) []) with
      | none =>
        apply iff_of_false
        · intro hc
          have hmsg : ("ValueError: max arg is an empty sequence" : String)
              = "ValueError: Required columns missing from DataFrame" := Except.error.inj hc
          exact absurd hmsg (by decide)
        · simp
      | some bp =>
        apply iff_of_false
        · intro hc
          exact Except.noConfusion hc
        · simp

/-!
## C3 — best horizon selection
-/

/-- The imbalance test on `dfC3N` with horizons [1, 2]: the horizon-1
correlation is nan, the horizon-2 correlation is 5 (under `psqrt = id`),
and Python's `max` keeps the nan incumbent, so `best_horizon = 1`. -/
theorem dfC3N_run_two_horizons :
    test_imbalance_hypothesis id dfC3N [1, 2] [1/2]
      = .ok (⟨[(1, nan), (2, val 5)], 1, [(1/2, 1)]⟩,
             [("mid_price", [val 1, val 2, val 4, val 7]),
              ("imbalance_5", [val (9/10), val (1/10), nan, nan]),
              ("returns", [val 1, val 1, val (3/4), nan])]) := by
  have hm : getCol dfC3N "mid_price" = some [val 1, val 2, val 4, val 7] := rfl
  have hi : getCol dfC3N "imbalance_5" = some [val (9/10), val (1/10), nan, nan] := rfl
  have hs1 : ("mid_price" : String) ≠ "returns" := by decide
  have hs2 : ("imbalance_5" : String) ≠ "returns" := by decide
  have hret1 : forwardReturns [val 1, val 2, val 4, val 7] 1
      = [val 1, val 1, val (3/4), nan] := by
    norm_num [forwardReturns, pctChange, seriesDiv, seriesShift, seriesShiftNeg, getE,
      pDiv, pSub, pAdd, pNeg, List.range_succ]
  have hret2 : forwardReturns [val 1, val 2, val 4, val 7] 2
      = [val 3, val (5/2), nan, nan] := by
    norm_num [forwardReturns, pctChange, seriesDiv, seriesShift, seriesShiftNeg, getE,
      pDiv, pSub, pAdd, pNeg, List.range_succ]
  have hpear1 : pearson id [val (9/10), val (1/10), nan, nan]
      [val 1, val 1, val (3/4), nan] = nan := by
    norm_num [pearson, PFloat.isNan, pSum, pDiv, pMul, pAdd, pSub, pNeg, List.filter]
  have hpear2 : pearson id [val (9/10), val (1/10), nan, nan]
      [val 3, val (5/2), nan, nan] = val 5 := by
    norm_num [pearson, PFloat.isNan, pSum, pDiv, pMul, pAdd, pSub, pNeg, List.filter]
  simp only [test_imbalance_hypothesis, hm, hi, List.foldl_cons, List.foldl_nil,
    dictInsert, hret1, hret2, hpear1, hpear2, pyMaxPairs]
  norm_num [strongRows, rowAllDefined, nRows, setCol, dictInsert, getE, pAbs, pyGt, pyLt,
    pyEqB, pSign, dfC3N, List.range_succ, PFloat.isNan, matchCount, hs1, hs2, abs_of_pos,
    hret1, hret2]

/-- The imbalance test on `dfC3N` with the single horizon 2: the only
correlation is the finite value 5, so every correlation is finite. -/
theorem dfC3N_run_single_horizon :
    test_imbalance_hypothesis id dfC3N [2] [1/2]
      = .ok (⟨[(2, val 5)], 2, [(1/2, 1)]⟩,
             [("mid_price", [val 1, val 2, val 4, val 7]),
              ("imbalance_5", [val (9/10), val (1/10), nan, nan]),
              ("returns", [val 3, val (5/2), nan, nan])]) := by
  have hm : getCol dfC3N "mid_price" = some [val 1, val 2, val 4, val 7] := rfl
  have hi : getCol dfC3N "imbalance_5" = some [val (9/10), val (1/10), nan, nan] := rfl
  have hs1 : ("mid_price" : String) ≠ "returns" := by decide
  have hs2 : ("imbalance_5" : String) ≠ "returns" := by decide
  have hret2 : forwardReturns [val 1, val 2, val 4, val 7] 2
      = [val 3, val (5/2), nan, nan] := by
    norm_num [forwardReturns, pctChange, seriesDiv, seriesShift, seriesShiftNeg, getE,
      pDiv, pSub, pAdd, pNeg, List.range_succ]
  have hpear2 : pearson id [val (9/10), val (1/10), nan, nan]
      [val 3, val (5/2), nan, nan] = val 5 := by
    norm_num [pearson, PFloat.isNan, pSum, pDiv, pMul, pAdd, pSub, pNeg, List.filter]
  simp only [test_imbalance_hypothesis, hm, hi, List.foldl_cons, List.foldl_nil,
    dictInsert, hret2, hpear2, pyMaxPairs]
  norm_num [strongRows, rowAllDefined, nRows, setCol, dictInsert, getE, pAbs, pyGt, pyLt,
    pyEqB, pSign, dfC3N, List.range_succ, PFloat.isNan, matchCount, hs1, hs2, abs_of_pos,
    hret2]

/-- C3 counterexample: on `dfC3N` with horizons [1, 2] the code computes
correlations {1: nan, 2: 5} and selects `best_horizon = 1` — the nan
incumbent survives every Python comparison — so the selected value is
nan, not the signed maximum 5 attained at horizon 2: the claim's
assertion that `correlations[best_horizon]` is the signed maximum "in
particular when some correlations are undefined (NaN)" is false. -/
theorem C3_counterexample_nan_incumbent :
    test_imbalance_hypothesis id dfC3N [1, 2] [1/2]
      = .ok (⟨[(1, nan), (2, val 5)], 1, [(1/2, 1)]⟩,
             [("mid_price", [val 1, val 2, val 4, val 7]),
              ("imbalance_5", [val (9/10), val (1/10), nan, nan]),
              ("returns", [val 1, val 1, val (3/4), nan])]) ∧
    dictGet ([(1, nan), (2, val 5)] : List (ℕ × PFloat)) 1 = some nan ∧
    dictGet ([(1, nan), (2, val 5)] : List (ℕ × PFloat)) 2 = some (val 5) ∧
    pyLe (val 5) nan = false ∧
    nan ≠ val 5 := by
  refine ⟨dfC3N_run_two_horizons, rfl, rfl, rfl, ?_⟩
  simp

/-- C3 (amended): whenever the imbalance test returns, `best_horizon`
is the key Python's `max(correlations, key=correlations.get)` selects:
a member of the supplied horizon set whose value is exactly
`max(correlations.values())` under Python's left-fold strict-greater
float semantics.  When every computed correlation is finite this is the
signed maximum with ties broken by first occurrence in iteration order;
a nan correlation that becomes the running incumbent, however, survives
every comparison, so in the NaN case `best_horizon` need not attain the
signed maximum. -/
theorem C3_best_horizon (psqrt : PFloat → PFloat) (df : Df)
    (horizons : List ℕ) (thresholds : List ℚ) (r : ImbResult) (df2 : Df)
    (hok : test_imbalance_hypothesis psqrt df horizons thresholds = .ok (r, df2)) :
    ∃ bp, pyMaxPairs r.correlations = some bp ∧ r.best_horizon = bp.1 ∧
      bp.1 ∈ horizons ∧
      dictGet r.correlations bp.1 = some bp.2 ∧
      pyMaxList (r.correlations.map Prod.snd) = some bp.2 ∧
      ((∀ q ∈ r.correlations, q.2.isVal = true) →
        (∀ q ∈ r.correlations, pyLe q.2 bp.2 = true) ∧
        r.correlations.find? (fun q => pyEqB q.2 bp.2) = some bp) := by
  cases hm : getCol df "mid_price" with
  | none =>
    simp only [test_imbalance_hypothesis, hm] at hok
    exact absurd hok (by simp)
  | some mid =>
    cases hi : getCol df "imbalance_5" with
    | none =>
      simp only [test_imbalance_hypothesis, hm, hi] at hok
      exact absurd hok (by simp)
    | some imb =>
      simp only [test_imbalance_hypothesis, hm, hi] at hok
      cases hcorr : horizons.foldl
          (fun d h => dictInsert d h (pearson psqrt imb (forwardReturns mid h))) [] with
      | nil =>
        rw [hcorr] at hok
        simp [pyMaxPairs] at hok
      | cons c0 rest =>
        rw [hcorr] at hok
        simp only [pyMaxPairs, Except.ok.injEq, Prod.mk.injEq] at hok
        obtain ⟨hr, hdf⟩ := hok
        have hinv : ∀ q ∈ c0 :: rest,
            q.1 ∈ horizons ∧ q.2 = pearson psqrt imb (forwardReturns mid q.1) := by
          intro q hq
          rcases mem_dictFoldAll (fun h => pearson psqrt imb (forwardReturns mid h))
              horizons [] q (by rw [hcorr]; exact hq) with h | h
          · simp at h
          · exact h
        have hmemM := foldPick_mem rest c0
        refine ⟨rest.foldl (fun b a => if pyGt a.2 b.2 then a else b) c0,
          ?_, ?_, ?_, ?_, ?_, ?_⟩
        · rw [← hr]
          rfl
        · rw [← hr]
        · exact (hinv _ hmemM).1
        · rw [← hr]
          show dictGet (c0 :: rest) _ = _
          have hget := dictFoldAll_get (fun h => pearson psqrt imb (forwardReturns mid h))
            horizons []
            ((rest.foldl (fun b a => if pyGt a.2 b.2 then a else b) c0).1)
          rw [hcorr] at hget
          rw [hget, if_pos (hinv _ hmemM).1, ← (hinv _ hmemM).2]
        · rw [← hr]
          show pyMaxList ((c0 :: rest).map Prod.snd) = _
          rw [List.map_cons]
          show some ((rest.map Prod.snd).foldl (fun b a => if pyGt a b then a else b) c0.2) = _
          rw [← foldPick_snd]
        · intro hfin
          rw [← hr] at hfin
          have hfin' : ∀ q ∈ c0 :: rest, q.2.isVal = true := hfin
          constructor
          · intro q hq
            rw [← hr] at hq
            exact foldPick_le rest c0 hfin' q hq
          · rw [← hr]
            exact foldPick_find rest c0 hfin'

/-- The imbalance test evaluated on the concrete frame `dfC3W`. -/
theorem dfC3W_run :
    test_imbalance_hypothesis id dfC3W [1, 2] [1/2]
      = .ok (⟨[(1, nan), (2, nan)], 1, [(1/2, 1)]⟩,
             [("mid_price", [val 1, val 2, val 4]),
              ("imbalance_5", [val (9/10), val (9/10), val (9/10)]),
              ("returns", [val 1, val 1, nan])]) := by
  have hm : getCol dfC3W "mid_price" = some [val 1, val 2, val 4] := rfl
  have hi : getCol dfC3W "imbalance_5" = some [val (9/10), val (9/10), val (9/10)] := rfl
  have hs1 : ("mid_price" : String) ≠ "returns" := by decide
  have hs2 : ("imbalance_5" : String) ≠ "returns" := by decide
  have hret1 : forwardReturns [val 1, val 2, val 4] 1 = [val 1, val 1, nan] := by
    norm_num [forwardReturns, pctChange, seriesDiv, seriesShift, seriesShiftNeg, getE,
      pDiv, pSub, pAdd, pNeg, List.range_succ]
  have hret2 : forwardReturns [val 1, val 2, val 4] 2 = [val 3, nan, nan] := by
    norm_num [forwardReturns, pctChange, seriesDiv, seriesShift, seriesShiftNeg, getE,
      pDiv, pSub, pAdd, pNeg, List.range_succ]
  have hpear1 : pearson id [val (9/10), val (9/10), val (9/10)] [val 1, val 1, nan] = nan := by
    norm_num [pearson, PFloat.isNan, pSum, pDiv, pMul, pAdd, pSub, pNeg, List.filter]
  have hpear2 : pearson id [val (9/10), val (9/10), val (9/10)] [val 3, nan, nan] = nan := by
    norm_num [pearson, PFloat.isNan, pSum, pDiv, pMul, pAdd, pSub, pNeg, List.filter]
  simp only [test_imbalance_hypothesis, hm, hi, List.foldl_cons, List.foldl_nil,
    dictInsert, hret1, hret2, hpear1, hpear2, pyMaxPairs]
  norm_num [strongRows, rowAllDefined, nRows, setCol, dictInsert, getE, pAbs, pyGt, pyLt,
    pyEqB, pSign, dfC3W, List.range_succ, PFloat.isNan, matchCount, hs1, hs2, abs_of_pos,
    hret1, hret2]

/-- C3 witness: the amended statement at a concrete run whose
correlations are all finite, exercising the signed-maximum and
first-occurrence conjunct non-vacuously. -/
theorem C3_best_horizon_witness :
    ∃ bp, pyMaxPairs (⟨[(2, val 5)], 2, [(1/2, 1)]⟩ : ImbResult).correlations
        = some bp ∧
      (⟨[(2, val 5)], 2, [(1/2, 1)]⟩ : ImbResult).best_horizon = bp.1 ∧
      bp.1 ∈ [2] ∧
      dictGet (⟨[(2, val 5)], 2, [(1/2, 1)]⟩ : ImbResult).correlations bp.1
        = some bp.2 ∧
      pyMaxList ((⟨[(2, val 5)], 2, [(1/2, 1)]⟩ : ImbResult).correlations.map
        Prod.snd) = some bp.2 ∧
      ((∀ q ∈ (⟨[(2, val 5)], 2, [(1/2, 1)]⟩ : ImbResult).correlations,
          q.2.isVal = true) →
        (∀ q ∈ (⟨[(2, val 5)], 2, [(1/2, 1)]⟩ : ImbResult).correlations,
          pyLe q.2 bp.2 = true) ∧
        (⟨[(2, val 5)], 2, [(1/2, 1)]⟩ : ImbResult).correlations.find?
          (fun q => pyEqB q.2 bp.2) = some bp) :=
  C3_best_horizon id dfC3N [2] [1/2] ⟨[(2, val 5)], 2, [(1/2, 1)]⟩
    [("mid_price", [val 1, val 2, val 4, val 7]),
     ("imbalance_5", [val (9/10), val (1/10), nan, nan]),
     ("returns", [val 3, val (5/2), nan, nan])] dfC3N_run_single_horizon

/-!
## C7 — threshold accuracy subset
-/

/-- The imbalance test evaluated on `dfC7`, whose extra `spread` column
is nan exactly on the rows that satisfy the threshold. -/
theorem dfC7_run :
    test_imbalance_hypothesis id dfC7 [1] [1/2]
      = .ok (⟨[(1, nan)], 1, []⟩, dfC7After) := by
  have hm : getCol dfC7 "mid_price" = some [val 2, val 1, val 2] := rfl
  have hi : getCol dfC7 "imbalance_5" = some [val (9/10), val (9/10), nan] := rfl
  have hs1 : ("mid_price" : String) ≠ "returns" := by decide
  have hs2 : ("imbalance_5" : String) ≠ "returns" := by decide
  have hs3 : ("spread" : String) ≠ "returns" := by decide
  have hret : forwardReturns [val 2, val 1, val 2] 1 = [val (-1/2), val 1, nan] := by
    norm_num [forwardReturns, pctChange, seriesDiv, seriesShift, seriesShiftNeg, getE,
      pDiv, pSub, pAdd, pNeg, List.range_succ]
  have hpear : pearson id [val (9/10), val (9/10), nan] [val (-1/2), val 1, nan] = nan := by
    norm_num [pearson, PFloat.isNan, pSum, pDiv, pMul, pAdd, pSub, pNeg, List.filter]
  simp only [test_imbalance_hypothesis, hm, hi, List.foldl_cons, List.foldl_nil,
    dictInsert, hret, hpear, pyMaxPairs]
  norm_num [strongRows, rowAllDefined, nRows, setCol, dictInsert, getE, pAbs, pyGt, pyLt,
    pyEqB, pSign, dfC7, dfC7After, List.range_succ, PFloat.isNan, matchCount, hs1, hs2, hs3,
    abs_of_pos, hret]

/-- C7 counterexample: on `dfC7` with threshold 1/2 the spec's
restricted set (rows 0 and 1: imbalance exceeds the threshold, both
imbalance and best-horizon return defined) is nonempty — the claim
demands an accuracy entry — yet the code's whole-row `dropna` removes
both rows (their unrelated `spread` cell is nan), so the threshold is
omitted from the output map. -/
theorem C7_counterexample_whole_row_dropna :
    test_imbalance_hypothesis id dfC7 [1] [1/2]
      = .ok (⟨[(1, nan)], 1, []⟩, dfC7After) ∧
    specRestrictedRows [val (9/10), val (9/10), nan]
      (forwardReturns [val 2, val 1, val 2] 1) (1/2) = [0, 1] := by
  refine ⟨dfC7_run, ?_⟩
  have hret : forwardReturns [val 2, val 1, val 2] 1 = [val (-1/2), val 1, nan] := by
    norm_num [forwardReturns, pctChange, seriesDiv, seriesShift, seriesShiftNeg, getE,
      pDiv, pSub, pAdd, pNeg, List.range_succ]
  norm_num [specRestrictedRows, hret, getE, pAbs, pyGt, pyLt, PFloat.isNan,
    List.range_succ, abs_of_pos]

/-- C7 (amended): the restricted row set of the accuracy step is the
code's `strongRows` — rows whose imbalance exceeds the threshold *and
whose every column of the mutated frame (including the stashed returns
column) is defined* (whole-row dropna, not the pairwise restriction the
original claim states); a supplied threshold is omitted from the output
map exactly when that set is empty, and otherwise its reported accuracy
is the matching-sign fraction over that set and lies in [0, 1]. -/
theorem C7_amended_threshold_accuracy (psqrt : PFloat → PFloat) (df : Df)
    (horizons : List ℕ) (thresholds : List ℚ) (τ : ℚ) (r : ImbResult) (df2 : Df)
    (hok : test_imbalance_hypothesis psqrt df horizons thresholds = .ok (r, df2))
    (hτ : τ ∈ thresholds) :
    ∃ mid imb, getCol df "mid_price" = some mid ∧ getCol df "imbalance_5" = some imb ∧
      df2 = setCol df "returns" (forwardReturns mid r.best_horizon) ∧
      (dictGet r.directional_accuracy τ = none ↔ strongRows df2 imb τ = []) ∧
      (∀ a, dictGet r.directional_accuracy τ = some a →
        a = (matchCount imb (forwardReturns mid r.best_horizon) (strongRows df2 imb τ) : ℚ)
            / ((strongRows df2 imb τ).length : ℚ) ∧
        0 ≤ a ∧ a ≤ 1) := by
  cases hm : getCol df "mid_price" with
  | none =>
    simp only [test_imbalance_hypothesis, hm] at hok
    exact absurd hok (by simp)
  | some mid =>
    cases hi : getCol df "imbalance_5" with
    | none =>
      simp only [test_imbalance_hypothesis, hm, hi] at hok
      exact absurd hok (by simp)
    | some imb =>
      simp only [test_imbalance_hypothesis, hm, hi] at hok
      cases hbp : pyMaxPairs (horizons.foldl
          (fun d h => dictInsert d h (pearson psqrt imb (forwardReturns mid h))) []) with
      | none =>
        rw [hbp] at hok
        simp at hok
      | some bp =>
        rw [hbp] at hok
        simp only [Except.ok.injEq, Prod.mk.injEq] at hok
        obtain ⟨hr, hdf⟩ := hok
        have hacc := dictFoldIf_get
          (fun t => ((matchCount imb (forwardReturns mid bp.1)
              (strongRows (setCol df "returns" (forwardReturns mid bp.1)) imb t) : ℚ) /
            ((strongRows (setCol df "returns" (forwardReturns mid bp.1)) imb t).length : ℚ)))
          (fun t => 0 < (strongRows (setCol df "returns" (forwardReturns mid bp.1)) imb t).length)
          thresholds [] τ
        refine ⟨mid, imb, rfl, rfl, ?_, ?_, ?_⟩
        · rw [← hdf, ← hr]
        · rw [← hdf, ← hr]
          show dictGet (thresholds.foldl _ []) τ = none ↔ _
          rw [hacc]
          by_cases hl : 0 < (strongRows (setCol df "returns" (forwardReturns mid bp.1)) imb τ).length
          · rw [if_pos ⟨hτ, hl⟩]
            constructor
            · intro hc
              exact absurd hc (by simp)
            · intro hc
              rw [hc] at hl
              simp at hl
          · rw [if_neg (by intro hc; exact hl hc.2)]
            simp only [dictGet]
            constructor
            · intro _
              have : (strongRows (setCol df "returns" (forwardReturns mid bp.1)) imb τ).length = 0 := by omega
              exact List.length_eq_zero.mp this
            · intro _
              trivial
        · intro a ha
          rw [← hr] at ha
          rw [← hdf, ← hr]
          have ha' : dictGet (thresholds.foldl
              (fun d t => if 0 < (strongRows (setCol df "returns" (forwardReturns mid bp.1)) imb t).length then
                dictInsert d t ((matchCount imb (forwardReturns mid bp.1)
                  (strongRows (setCol df "returns" (forwardReturns mid bp.1)) imb t) : ℚ) /
                  ((strongRows (setCol df "returns" (forwardReturns mid bp.1)) imb t).length : ℚ))
                else d) []) τ = some a := ha
          rw [hacc] at ha'
          by_cases hl : 0 < (strongRows (setCol df "returns" (forwardReturns mid bp.1)) imb τ).length
          · rw [if_pos ⟨hτ, hl⟩] at ha'
            have haval := Option.some.inj ha'
            have hcount : matchCount imb (forwardReturns mid bp.1)
                (strongRows (setCol df "returns" (forwardReturns mid bp.1)) imb τ)
                ≤ (strongRows (setCol df "returns" (forwardReturns mid bp.1)) imb τ).length :=
              List.length_filter_le _ _
            have hlen : (0 : ℚ) < ((strongRows (setCol df "returns" (forwardReturns mid bp.1)) imb τ).length : ℚ) := by
              exact_mod_cast hl
            refine ⟨haval.symm, ?_, ?_⟩
            · rw [← haval]
              positivity
            · rw [← haval]
              rw [div_le_one hlen]
              exact_mod_cast hcount
          · rw [if_neg (by intro hc; exact hl hc.2)] at ha'
            simp [dictGet] at ha'

/-- C7 witness: the amended statement at the concrete run on `dfC3W`,
where threshold 1/2 is reported with accuracy 1. -/
theorem C7_amended_threshold_accuracy_witness :
    ∃ mid imb, getCol dfC3W "mid_price" = some mid ∧
      getCol dfC3W "imbalance_5" = some imb ∧
      [("mid_price", [val 1, val 2, val 4]),
       ("imbalance_5", [val (9/10), val (9/10), val (9/10)]),
       ("returns", [val 1, val 1, nan])]
        = setCol dfC3W "returns" (forwardReturns mid
            (⟨[(1, nan), (2, nan)], 1, [(1/2, 1)]⟩ : ImbResult).best_horizon) ∧
      (dictGet (⟨[(1, nan), (2, nan)], 1, [(1/2, 1)]⟩ : ImbResult).directional_accuracy (1/2)
          = none ↔
        strongRows [("mid_price", [val 1, val 2, val 4]),
          ("imbalance_5", [val (9/10), val (9/10), val (9/10)]),
          ("returns", [val 1, val 1, nan])] imb (1/2) = []) ∧
      (∀ a, dictGet (⟨[(1, nan), (2, nan)], 1, [(1/2, 1)]⟩ : ImbResult).directional_accuracy
          (1/2) = some a →
        a = (matchCount imb (forwardReturns mid
              (⟨[(1, nan), (2, nan)], 1, [(1/2, 1)]⟩ : ImbResult).best_horizon)
              (strongRows [("mid_price", [val 1, val 2, val 4]),
                ("imbalance_5", [val (9/10), val (9/10), val (9/10)]),
                ("returns", [val 1, val 1, nan])] imb (1/2)) : ℚ)
            / ((strongRows [("mid_price", [val 1, val 2, val 4]),
                ("imbalance_5", [val (9/10), val (9/10), val (9/10)]),
                ("returns", [val 1, val 1, nan])] imb (1/2)).length : ℚ) ∧
        0 ≤ a ∧ a ≤ 1) :=
  C7_amended_threshold_accuracy id dfC3W [1, 2] [1/2] (1/2)
    ⟨[(1, nan), (2, nan)], 1, [(1/2, 1)]⟩
    [("mid_price", [val 1, val 2, val 4]),
     ("imbalance_5", [val (9/10), val (9/10), val (9/10)]),
     ("returns", [val 1, val 1, nan])]
    dfC3W_run (List.mem_singleton.mpr rfl)

/-!
## C9 / C10 — connector error handling and derived-field guards
-/

theorem truthyQ_eq_true {o : Option ℚ} (h : truthyQ o = true) :
    ∃ q, o = some q ∧ q ≠ 0 := by
  cases o with
  | none => simp [truthyQ] at h
  | some q =>
    refine ⟨q, rfl, ?_⟩
    simpa [truthyQ] using h

theorem truthyQ_of {q : ℚ} (h : q ≠ 0) : truthyQ (some q) = true := by
  simp [truthyQ, h]

/-- C9: `fetch_orderbook_snapshot` never propagates an exception — a
failing connector yields `None`, a failing snapshot-construction body
yields `None`, and a successful body yields the snapshot; likewise
`initialise_exchange` converts any initialization failure to `None`. -/
theorem C9_fetch_no_exception :
    (∀ (now : ℤ) (conn : Except String Orderbook) (symbol : String) (depth : ℕ),
      (∀ e, conn = .error e → fetch_orderbook_snapshot now conn symbol depth = none) ∧
      (∀ ob, conn = .ok ob →
        ((∀ e, fetch_body now symbol depth ob = .error e →
            fetch_orderbook_snapshot now conn symbol depth = none) ∧
         (∀ s, fetch_body now symbol depth ob = .ok s →
            fetch_orderbook_snapshot now conn symbol depth = some s)))) ∧
    (∀ (β : Type) (init : Except String β), initialise_exchange init = init.toOption) := by
  constructor
  · intro now conn symbol depth
    constructor
    · intro e he
      subst he
      rfl
    · intro ob hob
      subst hob
      constructor
      · intro e he
        simp only [fetch_orderbook_snapshot, Except.bind, he]
      · intro s hs
        simp only [fetch_orderbook_snapshot, Except.bind, hs]
  · intro β init
    cases init <;> rfl

/-- C9 witness: a connector failure and an initialization failure both
surface as `None` rather than an exception. -/
theorem C9_fetch_no_exception_witness :
    fetch_orderbook_snapshot 0 (.error "connection reset") "BTC/USDT" 20 = none ∧
    initialise_exchange (Except.error "init failed" : Except String Unit) = none := by
  have h := C9_fetch_no_exception
  refine ⟨(h.1 0 (.error "connection reset") "BTC/USDT" 20).1 "connection reset" rfl, ?_⟩
  have h2 := h.2 Unit (Except.error "init failed")
  exact h2.trans rfl

/-- C10: in every snapshot the fetch returns, the derived fields are
guarded by omission — spread, spread_bps and mid_price are present
exactly when best bid and ask are present and nonzero; imbalance_5 is
present exactly when additionally both 5-level depths are present and
nonzero; the spread_bps divisor is then nonzero, and (for an order book
with nonnegative sizes) imbalance_5 equals `(db − da)/(db + da)` with a
nonzero divisor and lies in [−1, 1].  A zero best bid or zero depth
silently omits these fields. -/
theorem C10_derived_field_guards (ob : Orderbook) (now : ℤ) (symbol : String) (depth : ℕ)
    (s : Snapshot)
    (hsz : ∀ p ∈ ob.bids ++ ob.asks, 0 ≤ p.2)
    (hs : fetch_orderbook_snapshot now (.ok ob) symbol depth = some s) :
    ((s.spread.isSome ∧ s.spread_bps.isSome ∧ s.mid_price.isSome) ↔
      ((∃ b, s.best_bid = some b ∧ b ≠ 0) ∧ (∃ a, s.best_ask = some a ∧ a ≠ 0))) ∧
    (s.imbalance_5.isSome ↔
      ((∃ b, s.best_bid = some b ∧ b ≠ 0) ∧ (∃ a, s.best_ask = some a ∧ a ≠ 0) ∧
       (∃ db, s.bid_depth_5 = some db ∧ db ≠ 0) ∧ (∃ da, s.ask_depth_5 = some da ∧ da ≠ 0))) ∧
    (∀ b, s.best_bid = some b → s.spread_bps.isSome → b ≠ 0) ∧
    (∀ i, s.imbalance_5 = some i →
      (∃ db da, s.bid_depth_5 = some db ∧ s.ask_depth_5 = some da ∧ db + da ≠ 0 ∧
        i = (db - da) / (db + da)) ∧ (-1 : ℚ) ≤ i ∧ i ≤ 1) := by
  have hsum_b : (0 : ℚ) ≤ ((ob.bids.take 5).map Prod.snd).sum := by
    apply List.sum_nonneg
    intro y hy
    rcases List.mem_map.mp hy with ⟨p, hp, hpy⟩
    rw [← hpy]
    exact hsz p (List.mem_append_left _ (List.mem_of_mem_take hp))
  have hsum_a : (0 : ℚ) ≤ ((ob.asks.take 5).map Prod.snd).sum := by
    apply List.sum_nonneg
    intro y hy
    rcases List.mem_map.mp hy with ⟨p, hp, hpy⟩
    rw [← hpy]
    exact hsz p (List.mem_append_right _ (List.mem_of_mem_take hp))
  simp only [fetch_orderbook_snapshot, Except.bind] at hs
  cases hb : fetch_body now symbol depth ob with
  | error e =>
    rw [hb] at hs
    simp at hs
  | ok s' =>
    rw [hb] at hs
    simp only [Option.some.injEq] at hs
    subst hs
    simp only [fetch_body] at hb
    by_cases hg1 : (truthyQ (ob.bids.head?.map Prod.fst)
        && truthyQ (ob.asks.head?.map Prod.fst)) = true
    · have hg1' := hg1
      rw [Bool.and_eq_true] at hg1'
      rcases hg1' with ⟨hgb, hga⟩
      rcases truthyQ_eq_true hgb with ⟨b0, hb0, hb0ne⟩
      rcases truthyQ_eq_true hga with ⟨a0, ha0, ha0ne⟩
      rw [if_pos hg1] at hb
      by_cases hg2 : (truthyQ (if 5 ≤ ob.bids.length
            then some (((ob.bids.take 5).map Prod.snd).sum) else none)
          && truthyQ (if 5 ≤ ob.asks.length
            then some (((ob.asks.take 5).map Prod.snd).sum) else none)) = true
      · have hg2' := hg2
        rw [Bool.and_eq_true] at hg2'
        rcases hg2' with ⟨hgdb, hgda⟩
        rw [if_pos hg2] at hb
        have hdb5 : 5 ≤ ob.bids.length := by
          by_contra hc
          rw [if_neg hc] at hgdb
          simp [truthyQ] at hgdb
        have hda5 : 5 ≤ ob.asks.length := by
          by_contra hc
          rw [if_neg hc] at hgda
          simp [truthyQ] at hgda
        rw [if_pos hdb5] at hgdb
        rw [if_pos hda5] at hgda
        rcases truthyQ_eq_true hgdb with ⟨db0, hdb0, hdb0ne⟩
        rcases truthyQ_eq_true hgda with ⟨da0, hda0, hda0ne⟩
        have hdbval : ((ob.bids.take 5).map Prod.snd).sum = db0 := Option.some.inj hdb0
        have hdaval : ((ob.asks.take 5).map Prod.snd).sum = da0 := Option.some.inj hda0
        have hdbpos : (0 : ℚ) < ((ob.bids.take 5).map Prod.snd).sum :=
          lt_of_le_of_ne hsum_b (by rw [hdbval]; exact Ne.symm hdb0ne)
        have hdapos : (0 : ℚ) < ((ob.asks.take 5).map Prod.snd).sum :=
          lt_of_le_of_ne hsum_a (by rw [hdaval]; exact Ne.symm hda0ne)
        simp only [if_pos hdb5, if_pos hda5, Option.getD_some] at hb
        have htot : (0 : ℚ) < ((ob.bids.take 5).map Prod.snd).sum
            + ((ob.asks.take 5).map Prod.snd).sum := by linarith
        rw [if_neg (by intro hc; rw [hc] at htot; exact lt_irrefl 0 htot)] at hb
        have hb' := Except.ok.inj hb
        subst hb'
        refine ⟨?_, ?_, ?_, ?_⟩
        · apply iff_of_true
          · exact ⟨rfl, rfl, rfl⟩
          · exact ⟨⟨b0, hb0, hb0ne⟩, ⟨a0, ha0, ha0ne⟩⟩
        · apply iff_of_true
          · rfl
          · refine ⟨⟨b0, hb0, hb0ne⟩, ⟨a0, ha0, ha0ne⟩, ?_, ?_⟩
            · refine ⟨((ob.bids.take 5).map Prod.snd).sum, rfl, ?_⟩
              intro hc
              rw [hc] at hdbpos
              exact lt_irrefl 0 hdbpos
            · refine ⟨((ob.asks.take 5).map Prod.snd).sum, rfl, ?_⟩
              intro hc
              rw [hc] at hdapos
              exact lt_irrefl 0 hdapos
        · intro b hbb _
          have hbb' : ob.bids.head?.map Prod.fst = some b := hbb
          rw [hb0] at hbb'
          have := Option.some.inj hbb'
          rw [← this]
          exact hb0ne
        · intro i hi
          have hival := Option.some.inj hi
          have htotne : ((ob.bids.take 5).map Prod.snd).sum
              + ((ob.asks.take 5).map Prod.snd).sum ≠ 0 := by
            intro hc
            rw [hc] at htot
            exact lt_irrefl 0 htot
          constructor
          · exact ⟨((ob.bids.take 5).map Prod.snd).sum, ((ob.asks.take 5).map Prod.snd).sum,
              rfl, rfl, htotne, hival.symm⟩
          · rw [← hival]
            constructor
            · rw [le_div_iff₀ htot]
              linarith
            · rw [div_le_one htot]
              linarith
      · rw [if_neg hg2] at hb
        have hb' := Except.ok.inj hb
        subst hb'
        refine ⟨?_, ?_, ?_, ?_⟩
        · apply iff_of_true
          · exact ⟨rfl, rfl, rfl⟩
          · exact ⟨⟨b0, hb0, hb0ne⟩, ⟨a0, ha0, ha0ne⟩⟩
        · apply iff_of_false
          · simp
          · intro hc
            rcases hc with ⟨_, _, ⟨db0, hdb0, hdb0ne⟩, ⟨da0, hda0, hda0ne⟩⟩
            apply hg2
            rw [Bool.and_eq_true]
            have hdb0' : (if 5 ≤ ob.bids.length
                then some (((ob.bids.take 5).map Prod.snd).sum) else none) = some db0 := hdb0
            have hda0' : (if 5 ≤ ob.asks.length
                then some (((ob.asks.take 5).map Prod.snd).sum) else none) = some da0 := hda0
            rw [hdb0', hda0']
            exact ⟨truthyQ_of hdb0ne, truthyQ_of hda0ne⟩
        · intro b hbb _
          have hbb' : ob.bids.head?.map Prod.fst = some b := hbb
          rw [hb0] at hbb'
          have := Option.some.inj hbb'
          rw [← this]
          exact hb0ne
        · intro i hi
          exact absurd hi (by simp)
    · rw [if_neg hg1] at hb
      have hb' := Except.ok.inj hb
      subst hb'
      refine ⟨?_, ?_, ?_, ?_⟩
      · apply iff_of_false
        · simp
        · intro hc
          rcases hc with ⟨⟨b0, hb0, hb0ne⟩, ⟨a0, ha0, ha0ne⟩⟩
          apply hg1
          rw [Bool.and_eq_true]
          have hb0' : ob.bids.head?.map Prod.fst = some b0 := hb0
          have ha0' : ob.asks.head?.map Prod.fst = some a0 := ha0
          rw [hb0', ha0']
          exact ⟨truthyQ_of hb0ne, truthyQ_of ha0ne⟩
      · apply iff_of_false
        · simp
        · intro hc
          rcases hc with ⟨⟨b0, hb0, hb0ne⟩, ⟨a0, ha0, ha0ne⟩, _, _⟩
          apply hg1
          rw [Bool.and_eq_true]
          have hb0' : ob.bids.head?.map Prod.fst = some b0 := hb0
          have ha0' : ob.asks.head?.map Prod.fst = some a0 := ha0
          rw [hb0', ha0']
          exact ⟨truthyQ_of hb0ne, truthyQ_of ha0ne⟩
      · intro b _ hsp
        exact absurd hsp (by simp)
      · intro i hi
        exact absurd hi (by simp)

/-- C10 witness: the guard statement at a concrete five-level order
book; the produced imbalance −1/11 lies in [−1, 1]. -/
theorem C10_derived_field_guards_witness :
    (∀ p ∈ obC10.bids ++ obC10.asks, 0 ≤ p.2) ∧
    ((-1 : ℚ) ≤ -1/11 ∧ (-1/11 : ℚ) ≤ 1) := by
  have hsz : ∀ p ∈ obC10.bids ++ obC10.asks, 0 ≤ p.2 := by
    norm_num [obC10]
  have hfetch : fetch_orderbook_snapshot 0 (.ok obC10) "BTC/USDT" 20 = some snapC10 := by
    norm_num [fetch_orderbook_snapshot, Except.bind, fetch_body, obC10, snapC10, truthyQ]
  have h := C10_derived_field_guards obC10 0 "BTC/USDT" 20 snapC10 hsz hfetch
  have himb : snapC10.imbalance_5 = some (-1/11) := by
    norm_num [snapC10]
  have h4 := (h.2.2.2 (-1/11) himb).2
  exact ⟨hsz, h4⟩
